import Mathlib

/-!
NoteListView: overlay window, selection, animation and drag protocol.

Shallow embedding of `src/notelistview.cpp` (class `NoteListView`).

* The list model is a list of rows (`model()->index(i, 0)` is position `i`).
  Every row carries the item data the view reads (`NoteID`, `NoteIsPinned`,
  `noteIsHaveTag`) and the `y` of its `visualRect` for the current scroll
  offset.  Pixel coordinates are far from the `int` limits, so they are `Int`.
* `m_openedEditor` (a `QMap<int, QVector<QWidget*>>`) is a key-ordered
  association list; widget handles are natural numbers.
* A `QModelIndex` is `Option Nat`: `none` is the invalid index.
-/

namespace Notes

/-- One row of the list model with the item data the view consults and the
vertical position of its visual rectangle in viewport coordinates. -/
structure NoteRow where
  id : Int
  isPinned : Bool
  isHaveTag : Bool
  y : Int
  deriving DecidableEq, Repr

/-- A model index of the single-column list: a row position, or invalid. -/
abbrev QModelIndex := Option Nat

/-- The registry `m_openedEditor`: note id to the editor widgets alive for it,
kept in ascending key order as a `QMap` is. -/
abbrev EditorMap := List (Int × List Nat)

/-- Qt `QMap::contains`. -/
def EditorMap.contains (m : EditorMap) (id : Int) : Bool :=
  m.any (fun e => e.1 == id)

/-- Qt `QMap::remove`. -/
def EditorMap.remove (m : EditorMap) (id : Int) : EditorMap :=
  m.filter (fun e => !(e.1 == id))

/-- Qt `m[id] = v`: overwrite the value of an existing key, or insert the key
at its place in ascending order. -/
def EditorMap.assign (id : Int) (v : List Nat) : EditorMap → EditorMap
  | [] => [(id, v)]
  | (k, w) :: t =>
    if id < k then (id, v) :: (k, w) :: t
    else if id = k then (id, v) :: t
    else (k, w) :: EditorMap.assign id v t

/-- `index.isValid()` for an index of the given model. -/
def isValid (rows : List NoteRow) (index : QModelIndex) : Bool :=
  match index with
  | some i => decide (i < rows.length)
  | none => false

/-- The row an index refers to, when it is valid. -/
def rowAt (rows : List NoteRow) (index : QModelIndex) : Option NoteRow :=
  match index with
  | some i => rows.get? i
  | none => none

/-- `index.data(NoteListModel::NoteID).toInt()`: an invalid index yields an
invalid `QVariant`, whose `toInt()` is 0. -/
def noteId (rows : List NoteRow) (index : QModelIndex) : Int :=
  match rowAt rows index with
  | some r => r.id
  | none => 0

/-- `index.data(NoteListModel::NoteIsPinned).toBool()`; false on an invalid
index. -/
def noteIsPinned (rows : List NoteRow) (index : QModelIndex) : Bool :=
  match rowAt rows index with
  | some r => r.isPinned
  | none => false

/-- `NoteListModel::noteIsHaveTag(index)`. -/
def noteIsHaveTag (rows : List NoteRow) (index : QModelIndex) : Bool :=
  match rowAt rows index with
  | some r => r.isHaveTag
  | none => false

/-- The body of `openPersistentEditorC` for a valid index that resolves to
row `r`: register the note id with an empty widget list when the note has a
tag. -/
def openRow (reg : EditorMap) (r : NoteRow) : EditorMap :=
  if r.isHaveTag then EditorMap.assign r.id [] reg else reg

/-- `NoteListView::openPersistentEditorC` on the registry. -/
def openPersistentEditorC (rows : List NoteRow) (reg : EditorMap) (index : QModelIndex) :
    EditorMap :=
  if isValid rows index then
    match rowAt rows index with
    | some r => openRow reg r
    | none => reg
  else reg

/-- `NoteListView::closePersistentEditorC` on the registry. -/
def closePersistentEditorC (rows : List NoteRow) (reg : EditorMap) (index : QModelIndex) :
    EditorMap :=
  if isValid rows index then reg.remove (noteId rows index) else reg

/-- `range = abs(viewport()->height())`. -/
def viewRange (height : Int) : Int := (Int.natAbs height : Int)

/-- The `for` loop of `scrollContentsBy` over the rows still to visit. Every
position below `rowCount()` gives a valid index, so the loop runs over the
rows in order; `break` returns the registry as it is. -/
def scrollLoop (range : Int) : List NoteRow → EditorMap → EditorMap
  | [], reg => reg
  | r :: rs, reg =>
    if reg.contains r.id then
      if r.y < -range ∨ r.y > 2 * range then
        scrollLoop range rs (reg.remove r.id)
      else
        scrollLoop range rs reg
    else
      if r.y < -range then scrollLoop range rs reg
      else if r.y > 2 * range then reg
      else scrollLoop range rs (openRow reg r)

/-- The window condition of the overlay policy: `-range ≤ y ≤ 2·range`. -/
def inWindow (range : Int) (r : NoteRow) : Bool :=
  decide (-range ≤ r.y) && decide (r.y ≤ 2 * range)

/-- The bits of `QItemSelectionModel::SelectionFlags` that the view uses. -/
structure SelectionFlags where
  clear : Bool
  select : Bool
  deselect : Bool
  toggle : Bool
  current : Bool
  deriving DecidableEq, Repr

/-- `QItemSelectionModel::NoUpdate`. -/
def SelectionFlags.NoUpdate : SelectionFlags := ⟨false, false, false, false, false⟩
/-- `QItemSelectionModel::Deselect`. -/
def SelectionFlags.Deselect : SelectionFlags := ⟨false, false, true, false, false⟩
/-- `QItemSelectionModel::Toggle`. -/
def SelectionFlags.Toggle : SelectionFlags := ⟨false, false, false, true, false⟩
/-- `QItemSelectionModel::SelectCurrent` (`Select | Current`). -/
def SelectionFlags.SelectCurrent : SelectionFlags := ⟨false, true, false, false, true⟩
/-- `QItemSelectionModel::ClearAndSelect` (`Clear | Select`). -/
def SelectionFlags.ClearAndSelect : SelectionFlags := ⟨true, true, false, false, false⟩

/-- Qt `QItemSelection::merge`: the rows of `other` are cut out of the old
selection; they are cut out of the new one only for `Toggle`, and the new
selection is not added for `Deselect`. -/
def mergeSelection (base other : List Nat) (command : SelectionFlags) : List Nat :=
  if other.isEmpty || !(command.select || command.deselect || command.toggle) then base
  else
    let kept := base.filter (fun i => !other.contains i)
    let added := if command.toggle then other.filter (fun i => !base.contains i) else other
    if command.deselect then kept else kept ++ added

/-- State of a `QItemSelectionModel`: the committed ranges, the current
selection with the command it was made with, and the current index. -/
structure QItemSelectionModel where
  ranges : List Nat
  currentSelection : List Nat
  currentCommand : SelectionFlags
  currentIndex : QModelIndex
  deriving DecidableEq, Repr

/-- Qt `QItemSelectionModel::selectedIndexes`. -/
def QItemSelectionModel.selectedIndexes (m : QItemSelectionModel) : List Nat :=
  mergeSelection m.ranges m.currentSelection m.currentCommand

/-- Qt `QItemSelectionModelPrivate::finalize`: commit the current selection. -/
def QItemSelectionModel.finalize (m : QItemSelectionModel) : QItemSelectionModel :=
  { m with ranges := mergeSelection m.ranges m.currentSelection m.currentCommand,
           currentSelection := [] }

/-- Qt `QItemSelectionModel::select(index, command)`. -/
def QItemSelectionModel.select (m : QItemSelectionModel) (index : QModelIndex)
    (command : SelectionFlags) : QItemSelectionModel :=
  if command = SelectionFlags.NoUpdate then m
  else
    let sel : List Nat := match index with
      | some i => [i]
      | none => []
    let m1 := if command.clear then { m with ranges := [], currentSelection := [] } else m
    let m2 := if command.current then m1 else m1.finalize
    if command.toggle || command.select || command.deselect then
      { m2 with currentCommand := command, currentSelection := sel }
    else m2

/-- Qt `QItemSelectionModel::setCurrentIndex(index, command)`. -/
def QItemSelectionModel.setCurrentIndex (m : QItemSelectionModel) (index : QModelIndex)
    (command : SelectionFlags) : QItemSelectionModel :=
  ({ m with currentIndex := index }).select index command

/-- Qt `QItemSelectionModel::clearSelection`. -/
def QItemSelectionModel.clearSelection (m : QItemSelectionModel) : QItemSelectionModel :=
  { m with ranges := [], currentSelection := [] }

/-- The two `QAbstractItemView::SelectionMode` values the view ever sets. -/
inductive SelectionMode where
  | SingleSelection
  | MultiSelection
  deriving DecidableEq, Repr

/-- Qt `QAbstractItemView::selectionCommand(index, nullptr)`: without an event
a single-selection view clears and selects, a multi-selection view toggles. -/
def selectionCommand (mode : SelectionMode) : SelectionFlags :=
  match mode with
  | .SingleSelection => SelectionFlags.ClearAndSelect
  | .MultiSelection => SelectionFlags.Toggle

/-! ## The view -/

/-- `NoteListState`, the animation states of the delegate. -/
inductive NoteListState where
  | Normal
  | Insert
  | Remove
  | MoveOut
  deriving DecidableEq, Repr

/-- Signals the embedded handlers emit. -/
inductive Signal where
  | notePressed (indexes : List Nat)
  | noteListViewClicked
  | pinnedCollapseChanged
  deriving DecidableEq, Repr

/-- State of a `NoteListView` with a model and a `NoteListDelegate` installed:
the members the embedded handlers read or write, the selection model, the
selection mode, the per-row animation state held by the delegate, and the
signals emitted so far. -/
structure NoteListView where
  rows : List NoteRow
  viewportHeight : Int
  selectionMode : SelectionMode
  selection : QItemSelectionModel
  m_openedEditor : EditorMap
  m_needRemovedNotes : List Int
  m_animationEnabled : Bool
  m_isMousePressed : Bool
  m_mousePressHandled : Bool
  m_isDragging : Bool
  m_isDraggingPinnedNotes : Bool
  m_isPinnedNotesCollapsed : Bool
  m_isDraggingInsidePinned : Bool
  tickets : Int → NoteListState
  emitted : List Signal

/-- The view right after its constructor, over the given model and viewport. -/
def NoteListView.init (rows : List NoteRow) (viewportHeight : Int) : NoteListView where
  rows := rows
  viewportHeight := viewportHeight
  selectionMode := .SingleSelection
  selection := ⟨[], [], SelectionFlags.NoUpdate, none⟩
  m_openedEditor := []
  m_needRemovedNotes := []
  m_animationEnabled := true
  m_isMousePressed := false
  m_mousePressHandled := false
  m_isDragging := false
  m_isDraggingPinnedNotes := false
  m_isPinnedNotesCollapsed := false
  m_isDraggingInsidePinned := false
  tickets := fun _ => .Normal
  emitted := []

/-- Emission of a signal, recorded in order. -/
def NoteListView.emit (s : NoteListView) (sig : Signal) : NoteListView :=
  { s with emitted := s.emitted ++ [sig] }

/-- Qt `QAbstractItemView::selectedIndexes` / `selectionModel()->selectedIndexes()`. -/
def NoteListView.selectedIndexes (s : NoteListView) : List Nat :=
  s.selection.selectedIndexes

/-- `QModelIndexList::contains(index)` on a list of valid indexes. -/
def containsIndex (l : List Nat) (index : QModelIndex) : Bool :=
  match index with
  | some i => l.contains i
  | none => false

/-- Qt `QAbstractItemView::setCurrentIndex(index)`: the selection command is
the one of the current selection mode; all rows of the model are enabled. -/
def NoteListView.setCurrentIndex (s : NoteListView) (index : QModelIndex) : NoteListView :=
  { s with selection := s.selection.setCurrentIndex index (selectionCommand s.selectionMode) }

/-- `NoteListView::setCurrentIndexC`. -/
def setCurrentIndexC (s : NoteListView) (index : QModelIndex) : NoteListView :=
  let s1 := s.setCurrentIndex index
  let s2 := { s1 with selection := s1.selection.clearSelection }
  let s3 := { s2 with selectionMode := .SingleSelection }
  { s3 with selection := s3.selection.setCurrentIndex index SelectionFlags.SelectCurrent }

/-- `NoteListView::setIsPinnedNotesCollapsed` (size hints and repaint are not
part of the state). -/
def setIsPinnedNotesCollapsed (s : NoteListView) (b : Bool) : NoteListView :=
  ({ s with m_isPinnedNotesCollapsed := b }).emit .pinnedCollapseChanged

/-! ## Pointer events -/

/-- The mouse buttons the handlers distinguish. -/
inductive MouseButton where
  | LeftButton
  | RightButton
  | OtherButton
  deriving DecidableEq, Repr

/-- What the handlers read from a `QMouseEvent`: `index` is
`indexAt(e->position())`, `ctrl` is `e->modifiers() == Qt::ControlModifier`,
and `onCollapseIcon` says that `isFirstPinnedNote(index)` holds and the icon
rectangle of the pinned section contains the pointer. -/
structure QMouseEvent where
  index : QModelIndex
  button : MouseButton
  ctrl : Bool
  onCollapseIcon : Bool
  deriving DecidableEq, Repr

/-- `NoteListView::mousePressEvent` (the stored press position only serves the
drag hot spot and is not part of the state). -/
def mousePressEvent (s : NoteListView) (e : QMouseEvent) : NoteListView :=
  let s0 := { s with m_isMousePressed := true }
  if !isValid s0.rows e.index then s0.emit .noteListViewClicked
  else if e.onCollapseIcon then
    { setIsPinnedNotesCollapsed s0 (!s0.m_isPinnedNotesCollapsed) with
        m_mousePressHandled := true }
  else
    match e.button with
    | .LeftButton =>
      let oldIndexes := s0.selectedIndexes
      if !containsIndex oldIndexes e.index then
        let s1 :=
          if e.ctrl then
            let a := { s0 with selectionMode := .MultiSelection }
            let b := a.setCurrentIndex e.index
            let c := { b with selection :=
              b.selection.setCurrentIndex e.index SelectionFlags.SelectCurrent }
            c.emit (.notePressed c.selectedIndexes)
          else
            (setCurrentIndexC s0 e.index).emit (.notePressed e.index.toList)
        { s1 with m_mousePressHandled := true }
      else s0
    | .RightButton =>
      let oldIndexes := s0.selectedIndexes
      if !containsIndex oldIndexes e.index then
        (setCurrentIndexC s0 e.index).emit (.notePressed e.index.toList)
      else s0
    | .OtherButton => s0

/-- `NoteListView::mouseReleaseEvent`. The closing call of
`QListView::mouseReleaseEvent` leaves the selection alone: it only selects
when the base press handler, which this view never calls, asked for it. -/
def mouseReleaseEvent (s : NoteListView) (e : QMouseEvent) : NoteListView :=
  let s0 := { s with m_isMousePressed := false }
  if !isValid s0.rows e.index then s0
  else
    let s1 :=
      if e.button = .LeftButton ∧ s0.m_mousePressHandled = false then
        if e.ctrl then
          let a := { s0 with selectionMode := .MultiSelection }
          let oldIndexes := a.selectedIndexes
          let b :=
            if containsIndex oldIndexes e.index ∧ oldIndexes.length > 1 then
              { a with selection := a.selection.select e.index SelectionFlags.Deselect }
            else
              let c := a.setCurrentIndex e.index
              { c with selection :=
                  c.selection.setCurrentIndex e.index SelectionFlags.SelectCurrent }
          b.emit (.notePressed b.selectedIndexes)
        else
          (setCurrentIndexC s0 e.index).emit (.notePressed e.index.toList)
      else s0
    { s1 with m_mousePressHandled := false }

/-- The selection step that opens `NoteListView::onCustomContextMenu`; the
rest of the handler assembles the menu from the resulting selection.
`index` is `indexAt(point)`. -/
def onCustomContextMenu (s : NoteListView) (index : QModelIndex) : NoteListView :=
  if isValid s.rows index then
    let indexList := s.selectedIndexes
    if !containsIndex indexList index then setCurrentIndexC s index else s
  else s

/-! ## Drag and drop -/

/-- What `dragMoveEvent` reads from a `QDragMoveEvent`, and its accept flag.
`listViewAccepts` is the accept flag that `QListView::dragMoveEvent` leaves
behind (it recomputes the drop indicator and may refuse the position). -/
structure QDragMoveEvent where
  hasNoteMime : Bool
  index : QModelIndex
  listViewAccepts : Bool
  accepted : Bool
  deriving DecidableEq, Repr

/-- `NoteListView::dragMoveEvent`. -/
def dragMoveEvent (s : NoteListView) (event : QDragMoveEvent) :
    NoteListView × QDragMoveEvent :=
  if event.hasNoteMime then
    let index := event.index
    let isPinned := noteIsPinned s.rows index
    if !isValid s.rows index then (s, { event with accepted := false })
    else if !s.m_isDraggingPinnedNotes && !isPinned then
      (s, { event with accepted := false })
    else
      ({ s with m_isDraggingInsidePinned := isPinned },
       { event with accepted := event.listViewAccepts })
  else (s, { event with accepted := false })

/-- `NoteListView::scrollContentsBy`. The scroll bars have moved before Qt
calls it, so the rows already carry their new `y`; `dx` and `dy` only feed
the base class, which repaints. -/
def scrollContentsBy (s : NoteListView) (_dx _dy : Int) : NoteListView :=
  let reg := scrollLoop (viewRange s.viewportHeight) s.rows s.m_openedEditor
  { s with m_openedEditor := reg }

/-- The search behind `getNoteIndex`: the first row with the id, counting
positions from `start`. -/
def findRow (id : Int) : List NoteRow → Nat → QModelIndex
  | [], _ => none
  | r :: rs, start => if r.id == id then some start else findRow id rs (start + 1)

/-- Modelled from the spec: `NoteListModel::getNoteIndex`, the data source
operation `positionOf(rowId) -> position` of §6: the position of the row with
this id, and the invalid index when no row has it. -/
def getNoteIndex (rows : List NoteRow) (id : Int) : QModelIndex :=
  findRow id rows 0

/-- Modelled from the spec: `NoteListModel::removeRow(index.row())`, the data
source operation `deleteAt(position)` of §6; a position that resolves to no
row (row `-1` of the invalid index) removes nothing (§5). -/
def removeRow (rows : List NoteRow) (index : QModelIndex) : List NoteRow :=
  match index with
  | some i => rows.eraseIdx i
  | none => rows

/-- Modelled from the spec: `NoteListDelegate::setState(state, indexes)`, the
per-row Animation Ticket of §3 and §4.3: every row named by a valid index
gets the state, all other rows keep theirs. -/
def setState (rows : List NoteRow) (tickets : Int → NoteListState) (state : NoteListState)
    (indexes : List QModelIndex) : Int → NoteListState :=
  fun id =>
    if indexes.any (fun ix => isValid rows ix && noteId rows ix == id) then state
    else tickets id

/-- `NoteListView::setAnimationEnabled`. -/
def setAnimationEnabled (s : NoteListView) (isEnabled : Bool) : NoteListView :=
  { s with m_animationEnabled := isEnabled }

/-- `NoteListView::animateAddedRow`. -/
def animateAddedRow (s : NoteListView) (indexes : List QModelIndex) : NoteListView :=
  { s with tickets := setState s.rows s.tickets .Insert indexes }

/-- `NoteListView::onRowsInserted`. -/
def onRowsInserted (s : NoteListView) (rows : List QModelIndex) : NoteListView :=
  animateAddedRow s rows

/-- `NoteListView::onRemoveRowRequested`. -/
def onRemoveRowRequested (s : NoteListView) (indexes : List QModelIndex) : NoteListView :=
  if !indexes.isEmpty then
    let ids := indexes.map (fun index => noteId s.rows index)
    let s1 := { s with m_needRemovedNotes := s.m_needRemovedNotes ++ ids }
    if s1.m_animationEnabled then
      { s1 with tickets := setState s1.rows s1.tickets .Remove indexes }
    else
      { s1 with tickets := setState s1.rows s1.tickets .Normal indexes }
  else s

/-- `NoteListView::rowsAboutToBeMoved`. -/
def rowsAboutToBeMoved (s : NoteListView) (source : List QModelIndex) : NoteListView :=
  if s.m_animationEnabled then
    { s with tickets := setState s.rows s.tickets .MoveOut source }
  else
    { s with tickets := setState s.rows s.tickets .Normal source }

/-- `NoteListView::rowsMoved`. -/
def rowsMoved (s : NoteListView) (dest : List QModelIndex) : NoteListView :=
  if s.m_animationEnabled then
    { s with tickets := setState s.rows s.tickets .Insert dest }
  else
    { s with tickets := setState s.rows s.tickets .Normal dest }

/-- `NoteListView::onAnimationFinished`. -/
def onAnimationFinished (s : NoteListView) (state : NoteListState) : NoteListView :=
  if state = .Remove then
    let rows := s.m_needRemovedNotes.foldl
      (fun rows id => removeRow rows (getNoteIndex rows id)) s.rows
    { s with rows := rows, m_needRemovedNotes := [] }
  else s

/-- The requests of §4.3 and the completion signal, as one alphabet. -/
inductive AnimOp where
  | setAnimationEnabled (isEnabled : Bool)
  | markInserted (rows : List QModelIndex)
  | markRemoveRequested (rows : List QModelIndex)
  | markMoveOut (rows : List QModelIndex)
  | markMoveIn (rows : List QModelIndex)
  | onAnimationFinished (state : NoteListState)
  deriving DecidableEq, Repr

/-- One request of §4.3 dispatched to the handler that serves it. -/
def animStep (s : NoteListView) (op : AnimOp) : NoteListView :=
  match op with
  | .setAnimationEnabled b => setAnimationEnabled s b
  | .markInserted rows => onRowsInserted s rows
  | .markRemoveRequested rows => onRemoveRowRequested s rows
  | .markMoveOut rows => rowsAboutToBeMoved s rows
  | .markMoveIn rows => rowsMoved s rows
  | .onAnimationFinished state => onAnimationFinished s state

/-- A sequence of requests run from a state, first request first. -/
def animRun (s : NoteListView) (ops : List AnimOp) : NoteListView :=
  ops.foldl animStep s

/-! ## Editor widgets of a registered row -/

/-- Qt `QMap::value`: the widget list stored for a key, empty when the key is
absent. -/
def EditorMap.value (m : EditorMap) (id : Int) : List Nat :=
  match m.find? (fun e => e.1 == id) with
  | some e => e.2
  | none => []

/-- Apply `f` to the widget list of every entry with the given key, as
`m[id].push_back(w)` and `m[id].removeAll(w)` do for a key that is present. -/
def EditorMap.update (m : EditorMap) (id : Int) (f : List Nat → List Nat) : EditorMap :=
  m.map (fun e => if e.1 == id then (e.1, f e.2) else e)

/-- `NoteListView::setEditorWidget` on the registry (the debug message for an
unknown note id is not part of the state). -/
def setEditorWidget (reg : EditorMap) (noteId : Int) (w : Nat) : EditorMap :=
  if reg.contains noteId then reg.update noteId (fun l => l ++ [w]) else reg

/-- `NoteListView::unsetEditorWidget` on the registry. -/
def unsetEditorWidget (reg : EditorMap) (noteId : Int) (w : Nat) : EditorMap :=
  if reg.contains noteId then reg.update noteId (fun l => l.filter (fun x => !(x == w)))
  else reg

/-! ## Pin actions of the context menu -/

/-- `ShowAction`, the local state of the pin decision in
`onCustomContextMenu`. -/
inductive ShowAction where
  | NotInit
  | ShowPin
  | ShowUnpin
  | ShowBoth
  deriving DecidableEq, Repr

/-- The two pin actions the context menu can receive. -/
inductive PinMenuAction where
  | m_pinNoteAction
  | m_unpinNoteAction
  deriving DecidableEq, Repr

/-- The `for` loop over `indexList` that decides the pin actions, from the
indexes still to visit and the current value of `a`; `break` returns at once. -/
def pinLoop (rows : List NoteRow) : List Nat → ShowAction → ShowAction
  | [], a => a
  | idx :: rest, a =>
    if noteIsPinned rows (some idx) then
      if a = .ShowPin then .ShowBoth else pinLoop rows rest .ShowUnpin
    else
      if a = .ShowUnpin then .ShowBoth else pinLoop rows rest .ShowPin

/-- The `switch (a)` after the loop: the actions added to the menu, in order. -/
def pinSwitch (a : ShowAction) : List PinMenuAction :=
  match a with
  | .ShowPin => [.m_pinNoteAction]
  | .ShowUnpin => [.m_unpinNoteAction]
  | _ => [.m_pinNoteAction, .m_unpinNoteAction]

/-- The pin section of `NoteListView::onCustomContextMenu` (the body of the
`if` on the list view info): `indexList` is the selection the menu is built
for, `index` the row under the pointer; `notes` is the `QSet` of the selected
note ids. -/
def contextMenuPinActions (rows : List NoteRow) (indexList : List Nat) (index : QModelIndex) :
    List PinMenuAction :=
  let notes := (indexList.map (fun i => noteId rows (some i))).dedup
  if notes.length > 1 then
    pinSwitch (pinLoop rows indexList .NotInit)
  else
    let isPinned := noteIsPinned rows index
    if !isPinned then [.m_pinNoteAction] else [.m_unpinNoteAction]

/-- The number of `notePressed` signals in a list of emitted signals. -/
def notePressedCount : List Signal → Nat
  | [] => 0
  | .notePressed _ :: rest => notePressedCount rest + 1
  | _ :: rest => notePressedCount rest

/-! ## Predicates used in the statements and proofs -/

/-- The registry needs no change from the scan: every row the scan reaches is
either active and inside the window, or inactive and not to be activated. -/
def Settled (range : Int) : List NoteRow → EditorMap → Prop
  | [], _ => True
  | r :: rs, reg =>
    if reg.contains r.id then
      ¬ (r.y < -range ∨ r.y > 2 * range) ∧ Settled range rs reg
    else if r.y < -range then Settled range rs reg
    else if r.y > 2 * range then True
    else r.isHaveTag = false ∧ Settled range rs reg


/-- The requests under which every pending removal keeps its Remove state:
a removal is requested for valid rows while animations are enabled, and no
insert or move request names a row whose removal is pending. -/
def animOpAllowed (s : NoteListView) : AnimOp → Bool
  | .setAnimationEnabled _ => true
  | .markInserted rows =>
    rows.all (fun ix => !(isValid s.rows ix && s.m_needRemovedNotes.contains (noteId s.rows ix)))
  | .markRemoveRequested rows =>
    s.m_animationEnabled && rows.all (fun ix => isValid s.rows ix)
  | .markMoveOut rows =>
    rows.all (fun ix => !(isValid s.rows ix && s.m_needRemovedNotes.contains (noteId s.rows ix)))
  | .markMoveIn rows =>
    rows.all (fun ix => !(isValid s.rows ix && s.m_needRemovedNotes.contains (noteId s.rows ix)))
  | .onAnimationFinished _ => true

/-- Every request of the sequence is allowed in the state it is issued in. -/
def animAllowed (s : NoteListView) : List AnimOp → Bool
  | [] => true
  | op :: ops => animOpAllowed s op && animAllowed (animStep s op) ops

/-! ## Sample states -/

/-- Five rows over a viewport of height 100: row 1 lies above the window,
rows 2 to 4 inside it (row 3 without a tag), row 5 below it. -/
def windowRows : List NoteRow :=
  [⟨1, false, true, -500⟩, ⟨2, false, true, 0⟩, ⟨3, false, false, 50⟩,
   ⟨4, false, true, 150⟩, ⟨5, false, true, 300⟩]

/-- A view over `windowRows` in which only row 1 has an editor. -/
def windowView : NoteListView :=
  { NoteListView.init windowRows 100 with m_openedEditor := [(1, [])] }

/-- The scenario of §8: rows A and B pinned, rows C, D and E not. -/
def pinnedRows : List NoteRow :=
  [⟨1, true, false, 0⟩, ⟨2, true, false, 40⟩, ⟨3, false, false, 80⟩,
   ⟨4, false, false, 120⟩, ⟨5, false, false, 160⟩]

/-- A fresh view over `pinnedRows`. -/
def pinnedView : NoteListView := NoteListView.init pinnedRows 100

/-- A note drag hovering over row B of `pinnedRows`, which the list view
would accept. -/
def dragOverB : QDragMoveEvent := ⟨true, some 1, true, false⟩

/-- A note drag hovering over row D of `pinnedRows`. -/
def dragOverD : QDragMoveEvent := ⟨true, some 3, true, true⟩

/-- A left-button event on row `i`, away from the collapse icon. -/
def leftOn (i : Nat) (ctrl : Bool) : QMouseEvent := ⟨some i, .LeftButton, ctrl, false⟩

/-- A right-button event on row `i`, away from the collapse icon. -/
def rightOn (i : Nat) (ctrl : Bool) : QMouseEvent := ⟨some i, .RightButton, ctrl, false⟩

/-- A left-button release over the empty area below the rows. -/
def releaseOutside : QMouseEvent := ⟨none, .LeftButton, true, false⟩

/-- Press and release of the left button on row `i` without a drag. -/
def leftClick (s : NoteListView) (i : Nat) (ctrl : Bool) : NoteListView :=
  mouseReleaseEvent (mousePressEvent s (leftOn i ctrl)) (leftOn i ctrl)

/-- A fresh view over `pinnedRows` after a plain click on row C, a ctrl-press
on the last row E and the release of that press just below the rows. -/
def unreleasedView : NoteListView :=
  mouseReleaseEvent (mousePressEvent (leftClick pinnedView 2 false) (leftOn 4 true))
    releaseOutside

/-- The view `pinnedView` after the drag `dragOverB` hovered over the pinned
row B: `m_isDraggingInsidePinned` is set. -/
def insidePinnedView : NoteListView := (dragMoveEvent pinnedView dragOverB).1

/-- A registry in which note 2 is registered and its editor widget 7 has been
reported through `setEditorWidget`. -/
def widgetRegistry : EditorMap :=
  setEditorWidget (openPersistentEditorC windowRows [] (some 1)) 2 7

/-! ## Registry lemmas -/

theorem contains_iff (m : EditorMap) (j : Int) :
    m.contains j = true ↔ ∃ e ∈ m, e.1 = j := by
  simp [EditorMap.contains, List.any_eq_true]

theorem contains_remove (m : EditorMap) (k j : Int) :
    (m.remove k).contains j = true ↔ m.contains j = true ∧ j ≠ k := by
  rw [contains_iff, contains_iff]
  unfold EditorMap.remove
  constructor
  · rintro ⟨e, he, rfl⟩
    rw [List.mem_filter] at he
    refine ⟨⟨e, he.1, rfl⟩, ?_⟩
    simpa using he.2
  · rintro ⟨⟨e, he, rfl⟩, hne⟩
    refine ⟨e, ?_, rfl⟩
    rw [List.mem_filter]
    exact ⟨he, by simpa using hne⟩

theorem contains_assign (m : EditorMap) (k : Int) (v : List Nat) (j : Int) :
    (EditorMap.assign k v m).contains j = true ↔ j = k ∨ m.contains j = true := by
  induction m with
  | nil =>
    rw [contains_iff, contains_iff]
    simp only [EditorMap.assign, List.mem_singleton, exists_eq_left, List.not_mem_nil,
      false_and, exists_false, or_false]
    exact eq_comm
  | cons e t ih =>
    obtain ⟨a, w⟩ := e
    rw [contains_iff] at ih
    simp only [EditorMap.assign]
    split
    · rw [contains_iff, contains_iff]
      simp only [List.mem_cons, exists_eq_or_imp]
      constructor
      · rintro (h | h | h)
        · exact Or.inl h.symm
        · exact Or.inr (Or.inl h)
        · exact Or.inr (Or.inr h)
      · rintro (h | h | h)
        · exact Or.inl h.symm
        · exact Or.inr (Or.inl h)
        · exact Or.inr (Or.inr h)
    · split
      · rename_i h
        subst h
        rw [contains_iff, contains_iff]
        simp only [List.mem_cons, exists_eq_or_imp]
        constructor
        · rintro (h | h)
          · exact Or.inl h.symm
          · exact Or.inr (Or.inr h)
        · rintro (h | h | h)
          · exact Or.inl h.symm
          · exact Or.inl h
          · exact Or.inr h
      · rw [contains_iff, contains_iff]
        simp only [List.mem_cons, exists_eq_or_imp, ih, contains_iff]
        tauto

theorem contains_openRow (reg : EditorMap) (r : NoteRow) (j : Int) :
    (openRow reg r).contains j = true ↔
      (r.isHaveTag = true ∧ j = r.id) ∨ reg.contains j = true := by
  unfold openRow
  cases h : r.isHaveTag <;> simp [contains_assign]


/-! ## The windowing scan -/

theorem scrollLoop_contains_of_not_mem (range : Int) (id : Int) :
    ∀ (rows : List NoteRow) (reg : EditorMap), (∀ r ∈ rows, r.id ≠ id) →
      ((scrollLoop range rows reg).contains id = true ↔ reg.contains id = true) := by
  intro rows
  induction rows with
  | nil => intro reg _; simp [scrollLoop]
  | cons r rs ih =>
    intro reg h
    have hr : r.id ≠ id := h r (List.mem_cons_self _ _)
    have hrs : ∀ q ∈ rs, q.id ≠ id := fun q hq => h q (List.mem_cons_of_mem _ hq)
    simp only [scrollLoop]
    split
    · split
      · rw [ih _ hrs, contains_remove]
        exact ⟨fun x => x.1, fun x => ⟨x, fun e => hr e.symm⟩⟩
      · exact ih _ hrs
    · split
      · exact ih _ hrs
      · split
        · exact Iff.rfl
        · rw [ih _ hrs, contains_openRow]
          constructor
          · rintro (⟨_, e⟩ | h)
            · exact absurd e.symm hr
            · exact h
          · exact fun h => Or.inr h

theorem scrollLoop_of_settled (range : Int) :
    ∀ (rows : List NoteRow) (reg : EditorMap), Settled range rows reg →
      scrollLoop range rows reg = reg := by
  intro rows
  induction rows with
  | nil => intro reg _; rfl
  | cons r rs ih =>
    intro reg h
    simp only [Settled] at h
    simp only [scrollLoop]
    split
    · rename_i hc
      rw [if_pos hc] at h
      rw [if_neg h.1]
      exact ih _ h.2
    · rename_i hc
      rw [if_neg hc] at h
      split
      · rename_i h1
        rw [if_pos h1] at h
        exact ih _ h
      · rename_i h1
        rw [if_neg h1] at h
        split
        · rfl
        · rename_i h2
          rw [if_neg h2] at h
          have : openRow reg r = reg := by simp [openRow, h.1]
          rw [this]
          exact ih _ h.2

theorem settled_scrollLoop (range : Int) :
    ∀ (rows : List NoteRow) (reg : EditorMap), (rows.map NoteRow.id).Nodup →
      Settled range rows (scrollLoop range rows reg) := by
  intro rows
  induction rows with
  | nil => intro _ _; trivial
  | cons r rs ih =>
    intro reg hnd
    rw [List.map_cons, List.nodup_cons] at hnd
    have hnot : ∀ q ∈ rs, q.id ≠ r.id := by
      intro q hq e
      exact hnd.1 (e ▸ List.mem_map_of_mem NoteRow.id hq)
    have keep := fun reg2 => scrollLoop_contains_of_not_mem range r.id rs reg2 hnot
    simp only [scrollLoop]
    split
    · rename_i hc
      split
      · rename_i hout
        -- closed: the row is inactive afterwards and lies outside the window
        have hno : ¬ ((scrollLoop range rs (reg.remove r.id)).contains r.id = true) := by
          rw [keep, contains_remove]
          exact fun x => x.2 rfl
        simp only [Settled]
        rw [if_neg hno]
        split
        · exact ih _ hnd.2
        · rename_i h1
          have h2 : r.y > 2 * range := by
            rcases hout with h | h
            · exact absurd h h1
            · exact h
          rw [if_pos h2]
          trivial
      · rename_i hin
        have hyes : (scrollLoop range rs reg).contains r.id = true := (keep reg).2 hc
        simp only [Settled]
        rw [if_pos hyes]
        exact ⟨hin, ih _ hnd.2⟩
    · rename_i hc
      split
      · rename_i h1
        have hno : ¬ ((scrollLoop range rs reg).contains r.id = true) := by
          rw [keep]; exact hc
        simp only [Settled]
        rw [if_neg hno, if_pos h1]
        exact ih _ hnd.2
      · rename_i h1
        split
        · rename_i h2
          simp only [Settled]
          rw [if_neg hc, if_neg h1, if_pos h2]
          trivial
        · rename_i h2
          cases htag : r.isHaveTag with
          | true =>
            have hyes : (scrollLoop range rs (openRow reg r)).contains r.id = true := by
              rw [keep, contains_openRow]
              exact Or.inl ⟨htag, rfl⟩
            simp only [Settled]
            rw [if_pos hyes]
            refine ⟨?_, ih _ hnd.2⟩
            intro h
            rcases h with h | h
            · exact h1 h
            · exact h2 h
          | false =>
            have hopen : openRow reg r = reg := by simp [openRow, htag]
            have hno : ¬ ((scrollLoop range rs (openRow reg r)).contains r.id = true) := by
              rw [keep, hopen]; exact hc
            simp only [Settled]
            rw [if_neg hno, if_neg h1, if_neg h2]
            exact ⟨htag, ih _ hnd.2⟩

theorem inWindow_iff (range : Int) (r : NoteRow) :
    inWindow range r = true ↔ ¬ (r.y < -range ∨ r.y > 2 * range) := by
  unfold inWindow
  simp only [Bool.and_eq_true, decide_eq_true_eq]
  constructor
  · rintro ⟨h1, h2⟩ (h | h) <;> omega
  · intro h
    constructor <;> · by_contra hc; apply h; omega

/-- C10: with distinct row ids, a second `scrollContentsBy` over the same
layout changes nothing: the registry, and so the set of overlay-active row
ids, is the one the first call left. -/
theorem scrollContentsBy_idempotent (s : NoteListView) (dx dy dx2 dy2 : Int)
    (hnodup : (s.rows.map NoteRow.id).Nodup) :
    (scrollContentsBy (scrollContentsBy s dx dy) dx2 dy2).m_openedEditor
        = (scrollContentsBy s dx dy).m_openedEditor ∧
      ∀ id, (scrollContentsBy (scrollContentsBy s dx dy) dx2 dy2).m_openedEditor.contains id
        = (scrollContentsBy s dx dy).m_openedEditor.contains id := by
  have h : (scrollContentsBy (scrollContentsBy s dx dy) dx2 dy2).m_openedEditor
      = (scrollContentsBy s dx dy).m_openedEditor := by
    simp only [scrollContentsBy]
    exact scrollLoop_of_settled _ _ _ (settled_scrollLoop _ _ _ hnodup)
  exact ⟨h, fun id => by rw [h]⟩

/-- Witness for C10: on `windowView` the first scan closes row 1, opens rows 2
and 4 and stops at row 5; the second scan leaves that registry as it is. -/
theorem scrollContentsBy_idempotent_witness :
    (windowView.rows.map NoteRow.id).Nodup ∧
    (scrollContentsBy (scrollContentsBy windowView 0 0) 0 0).m_openedEditor
        = (scrollContentsBy windowView 0 0).m_openedEditor ∧
      ∀ id, (scrollContentsBy (scrollContentsBy windowView 0 0) 0 0).m_openedEditor.contains id
        = (scrollContentsBy windowView 0 0).m_openedEditor.contains id :=
  ⟨by decide, scrollContentsBy_idempotent windowView 0 0 0 0 (by decide)⟩


/-! ## Claims on drag and drop -/

/-- C2, as stated, fails: in the scenario of §8 a drag of the unpinned row C
alone (`m_isDraggingPinnedNotes = false`) over the pinned row B is not
ignored: `dragMoveEvent` sets `m_isDraggingInsidePinned` and the event is
accepted. -/
theorem dragMoveEvent_unpinned_over_pinned_counterexample :
    pinnedView.m_isDraggingPinnedNotes = false ∧
    isValid pinnedView.rows dragOverB.index = true ∧
    noteIsPinned pinnedView.rows dragOverB.index = true ∧
    pinnedView.m_isDraggingInsidePinned = false ∧
    (dragMoveEvent pinnedView dragOverB).2.accepted = true ∧
    (dragMoveEvent pinnedView dragOverB).1.m_isDraggingInsidePinned
      = true := by
  decide

/-- C2 (amended): for a drag whose rows contain no pinned row and a valid
target row, `dragMoveEvent` never changes the row order; it ignores the move
and leaves the view as it is when the target is not pinned, and over a pinned
target of a note drag it sets `m_isDraggingInsidePinned` and leaves the accept
decision to the list view. -/
theorem dragMoveEvent_unpinned_drag (s : NoteListView) (event : QDragMoveEvent)
    (hdrag : s.m_isDraggingPinnedNotes = false)
    (hvalid : isValid s.rows event.index = true) :
    (dragMoveEvent s event).1.rows = s.rows ∧
    (noteIsPinned s.rows event.index = false →
      (dragMoveEvent s event).2.accepted = false ∧ (dragMoveEvent s event).1 = s) ∧
    (noteIsPinned s.rows event.index = true → event.hasNoteMime = true →
      (dragMoveEvent s event).2.accepted = event.listViewAccepts ∧
      (dragMoveEvent s event).1.m_isDraggingInsidePinned = true) := by
  refine ⟨?_, ?_, ?_⟩
  · simp only [dragMoveEvent]
    split
    · split
      · rfl
      · split <;> rfl
    · rfl
  · intro hp
    unfold dragMoveEvent
    split
    · simp [hvalid, hdrag, hp]
    · exact ⟨rfl, rfl⟩
  · intro hp hm
    unfold dragMoveEvent
    simp [hvalid, hdrag, hp, hm]

/-- Witness for C2 (amended): row C dragged over row D in the scenario of §8. -/
theorem dragMoveEvent_unpinned_drag_witness :
    (dragMoveEvent pinnedView dragOverD).1.rows = pinnedView.rows ∧
    (noteIsPinned pinnedView.rows dragOverD.index = false →
      (dragMoveEvent pinnedView dragOverD).2.accepted = false ∧
      (dragMoveEvent pinnedView dragOverD).1 = pinnedView) ∧
    (noteIsPinned pinnedView.rows dragOverD.index = true → dragOverD.hasNoteMime = true →
      (dragMoveEvent pinnedView dragOverD).2.accepted = dragOverD.listViewAccepts ∧
      (dragMoveEvent pinnedView dragOverD).1.m_isDraggingInsidePinned
        = true) :=
  dragMoveEvent_unpinned_drag pinnedView dragOverD (by decide) (by decide)


/-! ## Claims on the animation protocol -/

theorem findRow_of_nodup (rows : List NoteRow) :
    ∀ (start i : Nat) (r : NoteRow), (rows.map NoteRow.id).Nodup → rows[i]? = some r →
      findRow r.id rows start = some (start + i) := by
  induction rows with
  | nil => intro start i r _ h; simp at h
  | cons a t ih =>
    intro start i r hnd h
    rw [List.map_cons, List.nodup_cons] at hnd
    cases i with
    | zero =>
      simp only [List.getElem?_cons_zero, Option.some.injEq] at h
      subst h
      simp [findRow]
    | succ k =>
      simp only [List.getElem?_cons_succ] at h
      have hmem : r ∈ t := List.getElem?_mem h
      have hne : a.id ≠ r.id := by
        intro e
        exact hnd.1 (e ▸ List.mem_map_of_mem NoteRow.id hmem)
      simp only [findRow, beq_iff_eq, hne, if_false]
      rw [ih (start + 1) k r hnd.2 h]
      congr 1
      omega

theorem eraseIdx_eq_filter (rows : List NoteRow) :
    ∀ (i : Nat) (r : NoteRow), (rows.map NoteRow.id).Nodup → rows[i]? = some r →
      rows.eraseIdx i = rows.filter (fun q => !(q.id == r.id)) := by
  induction rows with
  | nil => intro i r _ h; simp at h
  | cons a t ih =>
    intro i r hnd h
    rw [List.map_cons, List.nodup_cons] at hnd
    cases i with
    | zero =>
      simp only [List.getElem?_cons_zero, Option.some.injEq] at h
      subst h
      have : t.filter (fun q => !(q.id == a.id)) = t := by
        rw [List.filter_eq_self]
        intro q hq
        have : q.id ≠ a.id := by
          intro e
          exact hnd.1 (e ▸ List.mem_map_of_mem NoteRow.id hq)
        simpa using this
      simp [List.filter_cons, this]
    | succ k =>
      simp only [List.getElem?_cons_succ] at h
      have hmem : r ∈ t := List.getElem?_mem h
      have hne : a.id ≠ r.id := by
        intro e
        exact hnd.1 (e ▸ List.mem_map_of_mem NoteRow.id hmem)
      rw [List.eraseIdx_cons_succ, ih k r hnd.2 h, List.filter_cons]
      simp [hne]

/-- C3: with distinct row ids, an empty pending list and a valid row `r` at
position `i`, `onRemoveRowRequested([r])` followed by
`onAnimationFinished(Remove)` leaves the row list without `r`, one row shorter,
with all other rows in their original order, and an empty pending list. -/
theorem remove_then_finished (s : NoteListView) (i : Nat) (r : NoteRow)
    (hnodup : (s.rows.map NoteRow.id).Nodup)
    (hrow : s.rows[i]? = some r)
    (hpending : s.m_needRemovedNotes = []) :
    (onAnimationFinished (onRemoveRowRequested s [some i]) .Remove).rows.length + 1
        = s.rows.length ∧
    r ∉ (onAnimationFinished (onRemoveRowRequested s [some i]) .Remove).rows ∧
    (∀ q ∈ (onAnimationFinished (onRemoveRowRequested s [some i]) .Remove).rows,
        q.id ≠ r.id) ∧
    (onAnimationFinished (onRemoveRowRequested s [some i]) .Remove).rows
        = s.rows.filter (fun q => !(q.id == r.id)) ∧
    (onAnimationFinished (onRemoveRowRequested s [some i]) .Remove).m_needRemovedNotes
        = [] := by
  have hlt : i < s.rows.length := by
    rcases Nat.lt_or_ge i s.rows.length with h | h
    · exact h
    · rw [List.getElem?_eq_none h] at hrow
      exact Option.noConfusion hrow
  have hrows : (onAnimationFinished (onRemoveRowRequested s [some i]) .Remove).rows
      = s.rows.eraseIdx i := by
    have hid : noteId s.rows (some i) = r.id := by simp [noteId, rowAt, hrow]
    have hfind : getNoteIndex s.rows r.id = some i := by
      have := findRow_of_nodup s.rows 0 i r hnodup hrow
      simpa [getNoteIndex] using this
    cases hanim : s.m_animationEnabled <;>
      simp [onAnimationFinished, onRemoveRowRequested, hpending, hanim, hid, hfind, removeRow]
  have hfilter := eraseIdx_eq_filter s.rows i r hnodup hrow
  refine ⟨?_, ?_, ?_, ?_, ?_⟩
  · rw [hrows, List.length_eraseIdx, if_pos hlt]
    omega
  · rw [hrows, hfilter, List.mem_filter]
    simp
  · intro q hq
    rw [hrows, hfilter, List.mem_filter] at hq
    simpa using hq.2
  · rw [hrows, hfilter]
  · cases hanim : s.m_animationEnabled <;>
      simp [onAnimationFinished, onRemoveRowRequested, hanim]

/-- Witness for C3: removing row C (position 2) of `pinnedRows`. -/
theorem remove_then_finished_witness :
    (onAnimationFinished (onRemoveRowRequested pinnedView [some 2]) .Remove).rows.length + 1
        = pinnedView.rows.length ∧
    (⟨3, false, false, 80⟩ : NoteRow) ∉
      (onAnimationFinished (onRemoveRowRequested pinnedView [some 2]) .Remove).rows ∧
    (∀ q ∈ (onAnimationFinished (onRemoveRowRequested pinnedView [some 2]) .Remove).rows,
        q.id ≠ (⟨3, false, false, 80⟩ : NoteRow).id) ∧
    (onAnimationFinished (onRemoveRowRequested pinnedView [some 2]) .Remove).rows
        = pinnedView.rows.filter (fun q => !(q.id == (⟨3, false, false, 80⟩ : NoteRow).id)) ∧
    (onAnimationFinished (onRemoveRowRequested pinnedView [some 2]) .Remove).m_needRemovedNotes
        = [] :=
  remove_then_finished pinnedView 2 ⟨3, false, false, 80⟩ (by decide) (by decide) (by decide)


/-- C5, as stated, fails: with animations disabled, a removal request puts
the row id into `m_needRemovedNotes` and sets the row to Normal. -/
theorem pendingRemoval_ticket_counterexample :
    (1 : Int) ∈ (animRun pinnedView
        [.setAnimationEnabled false, .markRemoveRequested [some 0]]).m_needRemovedNotes ∧
    (animRun pinnedView
        [.setAnimationEnabled false, .markRemoveRequested [some 0]]).tickets 1
      = NoteListState.Normal := by
  decide

theorem setState_keeps (rows : List NoteRow) (tickets : Int → NoteListState)
    (state : NoteListState) (indexes : List QModelIndex) (id : Int)
    (h : ∀ ix ∈ indexes, isValid rows ix = true → noteId rows ix ≠ id) :
    setState rows tickets state indexes id = tickets id := by
  unfold setState
  rw [if_neg]
  rw [List.any_eq_true]
  rintro ⟨ix, hix, hc⟩
  rw [Bool.and_eq_true, beq_iff_eq] at hc
  exact h ix hix hc.1 hc.2

theorem setState_sets (rows : List NoteRow) (tickets : Int → NoteListState)
    (state : NoteListState) (indexes : List QModelIndex) (ix : QModelIndex)
    (hix : ix ∈ indexes) (hv : isValid rows ix = true) :
    setState rows tickets state indexes (noteId rows ix) = state := by
  unfold setState
  rw [if_pos]
  rw [List.any_eq_true]
  exact ⟨ix, hix, by simp [hv]⟩

theorem setState_remove (rows : List NoteRow) (tickets : Int → NoteListState)
    (indexes : List QModelIndex) (id : Int) (h : tickets id = .Remove) :
    setState rows tickets .Remove indexes id = .Remove := by
  unfold setState
  split
  · rfl
  · exact h

theorem animStep_invariant (s : NoteListView) (op : AnimOp)
    (hinv : ∀ id ∈ s.m_needRemovedNotes, s.tickets id = .Remove)
    (hok : animOpAllowed s op = true) :
    ∀ id ∈ (animStep s op).m_needRemovedNotes, (animStep s op).tickets id = .Remove := by
  have hother : ∀ (state : NoteListState) (rows : List QModelIndex),
      rows.all (fun ix =>
        !(isValid s.rows ix && s.m_needRemovedNotes.contains (noteId s.rows ix))) = true →
      ∀ id ∈ s.m_needRemovedNotes, setState s.rows s.tickets state rows id = .Remove := by
    intro state rows hall id hid
    rw [setState_keeps, hinv id hid]
    intro ix hix hv e
    rw [List.all_eq_true] at hall
    have := hall ix hix
    rw [hv, e] at this
    simp [hid] at this
  cases op with
  | setAnimationEnabled b => exact hinv
  | markInserted rows =>
    intro id hid
    exact hother .Insert rows hok id hid
  | markRemoveRequested rows =>
    simp only [animOpAllowed, Bool.and_eq_true, List.all_eq_true] at hok
    intro id hid
    simp only [animStep, onRemoveRowRequested, hok.1] at hid ⊢
    cases hempty : rows.isEmpty with
    | true =>
      simp only [hempty, Bool.not_true, Bool.false_eq_true, if_false] at hid ⊢
      exact hinv id hid
    | false =>
      simp only [hempty, Bool.not_false, if_true, List.mem_append, List.mem_map] at hid ⊢
      rcases hid with hid | ⟨ix, hix, rfl⟩
      · exact setState_remove _ _ _ _ (hinv id hid)
      · exact setState_sets _ _ _ _ ix hix (hok.2 ix hix)
  | markMoveOut rows =>
    intro id hid
    simp only [animStep, rowsAboutToBeMoved] at hid ⊢
    split at hid <;> rename_i ha <;> simp only [ha, if_true, if_false] at hid ⊢
    · exact hother .MoveOut rows hok id hid
    · exact hother .Normal rows hok id hid
  | markMoveIn rows =>
    intro id hid
    simp only [animStep, rowsMoved] at hid ⊢
    split at hid <;> rename_i ha <;> simp only [ha, if_true, if_false] at hid ⊢
    · exact hother .Insert rows hok id hid
    · exact hother .Normal rows hok id hid
  | onAnimationFinished state =>
    intro id hid
    simp only [animStep, onAnimationFinished] at hid ⊢
    split at hid
    · simp at hid
    · rename_i hs
      rw [if_neg hs]
      exact hinv id hid

/-- C5 (amended): in every state reached from a fresh view by requests of §4.3
in which removals are requested for valid rows while animations are enabled
and no insert or move request names a row whose removal is pending, every id
in `m_needRemovedNotes` has animation state Remove. -/
theorem pendingRemoval_ticket_invariant (rows : List NoteRow) (height : Int)
    (ops : List AnimOp)
    (hok : animAllowed (NoteListView.init rows height) ops = true) :
    ∀ id ∈ (animRun (NoteListView.init rows height) ops).m_needRemovedNotes,
      (animRun (NoteListView.init rows height) ops).tickets id = .Remove := by
  have gen : ∀ (ops : List AnimOp) (s : NoteListView),
      (∀ id ∈ s.m_needRemovedNotes, s.tickets id = .Remove) →
      animAllowed s ops = true →
      ∀ id ∈ (animRun s ops).m_needRemovedNotes, (animRun s ops).tickets id = .Remove := by
    intro ops
    induction ops with
    | nil => intro s hinv _; exact hinv
    | cons op rest ih =>
      intro s hinv hall
      simp only [animAllowed, Bool.and_eq_true] at hall
      simp only [animRun, List.foldl_cons]
      exact ih (animStep s op) (animStep_invariant s op hinv hall.1) hall.2
  exact gen ops _ (by intro id hid; simp [NoteListView.init] at hid) hok

/-- Witness for C5 (amended): two removals requested with animations on, an
insert of another row in between. -/
theorem pendingRemoval_ticket_invariant_witness :
    animAllowed (NoteListView.init pinnedRows 100)
        [.markRemoveRequested [some 0], .markInserted [some 3],
         .markRemoveRequested [some 2, some 4]] = true ∧
    ∀ id ∈ (animRun (NoteListView.init pinnedRows 100)
        [.markRemoveRequested [some 0], .markInserted [some 3],
         .markRemoveRequested [some 2, some 4]]).m_needRemovedNotes,
      (animRun (NoteListView.init pinnedRows 100)
        [.markRemoveRequested [some 0], .markInserted [some 3],
         .markRemoveRequested [some 2, some 4]]).tickets id = .Remove :=
  ⟨by decide, pendingRemoval_ticket_invariant pinnedRows 100 _ (by decide)⟩


/-! ## Claims on the drag round trip -/

theorem mem_merge_deselect (base : List Nat) (i j : Nat) :
    j ∈ mergeSelection base [i] SelectionFlags.Deselect ↔ j ∈ base ∧ j ≠ i := by
  simp [mergeSelection, SelectionFlags.Deselect, List.mem_filter]

theorem mem_merge_selectCurrent (base : List Nat) (i j : Nat) :
    j ∈ mergeSelection base [i] SelectionFlags.SelectCurrent ↔ j ∈ base ∨ j = i := by
  simp only [mergeSelection, SelectionFlags.SelectCurrent]
  by_cases h : j = i <;> simp [List.mem_filter, h]

theorem isValid_some (rows : List NoteRow) (i : Nat) (h : i < rows.length) :
    isValid rows (some i) = true := by
  simp [isValid, h]

theorem containsIndex_true (l : List Nat) (i : Nat) (h : i ∈ l) :
    containsIndex l (some i) = true := by
  simp [containsIndex, h]

theorem containsIndex_false (l : List Nat) (i : Nat) (h : i ∉ l) :
    containsIndex l (some i) = false := by
  simp [containsIndex, h]

theorem setCurrentIndexC_eq (s : NoteListView) (i : Nat) :
    setCurrentIndexC s (some i)
      = { s with selectionMode := .SingleSelection,
                 selection := ⟨[], [i], SelectionFlags.SelectCurrent, some i⟩ } := by
  simp [setCurrentIndexC, NoteListView.setCurrentIndex, QItemSelectionModel.setCurrentIndex,
      QItemSelectionModel.select, QItemSelectionModel.clearSelection,
      SelectionFlags.SelectCurrent, SelectionFlags.NoUpdate]

theorem press_left_selected (s : NoteListView) (i : Nat) (ctrl : Bool)
    (hvalid : i < s.rows.length) (hsel : i ∈ s.selectedIndexes) :
    mousePressEvent s (leftOn i ctrl) = { s with m_isMousePressed := true } := by
  have hv := isValid_some s.rows i hvalid
  have hc := containsIndex_true _ i hsel
  simp only [NoteListView.selectedIndexes] at hc
  simp only [mousePressEvent, leftOn, hv, hc, NoteListView.selectedIndexes]
  rfl

theorem press_left_plain (s : NoteListView) (i : Nat)
    (hvalid : i < s.rows.length) (hsel : i ∉ s.selectedIndexes) :
    mousePressEvent s (leftOn i false)
      = { s with m_isMousePressed := true,
                 m_mousePressHandled := true,
                 selectionMode := .SingleSelection,
                 selection := ⟨[], [i], SelectionFlags.SelectCurrent, some i⟩,
                 emitted := s.emitted ++ [.notePressed [i]] } := by
  have hv := isValid_some s.rows i hvalid
  have hc := containsIndex_false _ i hsel
  simp only [NoteListView.selectedIndexes] at hc
  simp only [mousePressEvent, leftOn, hv, hc, NoteListView.selectedIndexes,
    setCurrentIndexC_eq, NoteListView.emit]
  rfl

/-- The selection that the ctrl branch of press and release builds on a row
that is not to be deselected: `setCurrentIndex(index)` toggles in
multi-selection mode, then `SelectCurrent` selects. -/
theorem toggle_then_selectCurrent (m : QItemSelectionModel) (i : Nat) :
    ((m.setCurrentIndex (some i) (selectionCommand .MultiSelection)).setCurrentIndex
        (some i) SelectionFlags.SelectCurrent)
      = ⟨m.selectedIndexes, [i], SelectionFlags.SelectCurrent, some i⟩ := by
  simp [QItemSelectionModel.setCurrentIndex, QItemSelectionModel.select, selectionCommand,
      SelectionFlags.Toggle, SelectionFlags.SelectCurrent, SelectionFlags.NoUpdate,
      QItemSelectionModel.finalize, QItemSelectionModel.selectedIndexes]

theorem select_deselect (m : QItemSelectionModel) (i : Nat) :
    m.select (some i) SelectionFlags.Deselect
      = ⟨m.selectedIndexes, [i], SelectionFlags.Deselect, m.currentIndex⟩ := by
  simp [QItemSelectionModel.select, SelectionFlags.Deselect, SelectionFlags.NoUpdate,
      QItemSelectionModel.finalize, QItemSelectionModel.selectedIndexes]

theorem press_left_ctrl (s : NoteListView) (i : Nat)
    (hvalid : i < s.rows.length) (hsel : i ∉ s.selectedIndexes) :
    mousePressEvent s (leftOn i true)
      = { s with m_isMousePressed := true,
                 m_mousePressHandled := true,
                 selectionMode := .MultiSelection,
                 selection := ⟨s.selectedIndexes, [i], SelectionFlags.SelectCurrent, some i⟩,
                 emitted := s.emitted ++ [.notePressed
                   (mergeSelection s.selectedIndexes [i] SelectionFlags.SelectCurrent)] } := by
  have hv := isValid_some s.rows i hvalid
  have hc := containsIndex_false _ i hsel
  simp only [NoteListView.selectedIndexes] at hc
  simp only [mousePressEvent, leftOn, hv, hc, NoteListView.selectedIndexes,
    NoteListView.setCurrentIndex, toggle_then_selectCurrent, NoteListView.emit]
  rfl

theorem press_right_unselected (s : NoteListView) (i : Nat) (ctrl : Bool)
    (hvalid : i < s.rows.length) (hsel : i ∉ s.selectedIndexes) :
    mousePressEvent s (rightOn i ctrl)
      = { s with m_isMousePressed := true,
                 selectionMode := .SingleSelection,
                 selection := ⟨[], [i], SelectionFlags.SelectCurrent, some i⟩,
                 emitted := s.emitted ++ [.notePressed [i]] } := by
  have hv := isValid_some s.rows i hvalid
  have hc := containsIndex_false _ i hsel
  simp only [NoteListView.selectedIndexes] at hc
  simp only [mousePressEvent, rightOn, hv, hc, NoteListView.selectedIndexes,
    setCurrentIndexC_eq, NoteListView.emit]
  rfl

theorem press_right_selected (s : NoteListView) (i : Nat) (ctrl : Bool)
    (hvalid : i < s.rows.length) (hsel : i ∈ s.selectedIndexes) :
    mousePressEvent s (rightOn i ctrl) = { s with m_isMousePressed := true } := by
  have hv := isValid_some s.rows i hvalid
  have hc := containsIndex_true _ i hsel
  simp only [NoteListView.selectedIndexes] at hc
  simp only [mousePressEvent, rightOn, hv, hc, NoteListView.selectedIndexes]
  rfl

theorem release_left_plain (s : NoteListView) (i : Nat)
    (hvalid : i < s.rows.length) (hflag : s.m_mousePressHandled = false) :
    mouseReleaseEvent s (leftOn i false)
      = { s with m_isMousePressed := false,
                 m_mousePressHandled := false,
                 selectionMode := .SingleSelection,
                 selection := ⟨[], [i], SelectionFlags.SelectCurrent, some i⟩,
                 emitted := s.emitted ++ [.notePressed [i]] } := by
  have hv := isValid_some s.rows i hvalid
  simp only [mouseReleaseEvent, leftOn, hv, hflag, setCurrentIndexC_eq, NoteListView.emit]
  rfl

theorem release_left_handled (s : NoteListView) (i : Nat) (ctrl : Bool)
    (hvalid : i < s.rows.length) (hflag : s.m_mousePressHandled = true) :
    mouseReleaseEvent s (leftOn i ctrl)
      = { s with m_isMousePressed := false, m_mousePressHandled := false } := by
  have hv := isValid_some s.rows i hvalid
  simp only [mouseReleaseEvent, leftOn, hv, hflag]
  rfl

theorem release_left_ctrl_deselect (s : NoteListView) (i : Nat)
    (hvalid : i < s.rows.length) (hflag : s.m_mousePressHandled = false)
    (hsel : i ∈ s.selectedIndexes) (hlen : s.selectedIndexes.length > 1) :
    mouseReleaseEvent s (leftOn i true)
      = { s with m_isMousePressed := false,
                 m_mousePressHandled := false,
                 selectionMode := .MultiSelection,
                 selection := ⟨s.selectedIndexes, [i], SelectionFlags.Deselect,
                   s.selection.currentIndex⟩,
                 emitted := s.emitted ++ [.notePressed
                   (mergeSelection s.selectedIndexes [i] SelectionFlags.Deselect)] } := by
  have hv := isValid_some s.rows i hvalid
  have hc := containsIndex_true _ i hsel
  simp only [NoteListView.selectedIndexes] at hc hlen
  simp only [mouseReleaseEvent, leftOn, hv, hflag, hc, hlen, NoteListView.selectedIndexes,
    select_deselect, NoteListView.emit]
  rfl

/-- C6 fails on the code in a reachable state: in `unreleasedView` rows C and E
are selected and the press flag `m_mousePressHandled` of the earlier ctrl-press
is still set; a ctrl-click on the valid, selected row C then changes nothing,
and both rows stay selected. -/
theorem ctrlClick_after_unreleased_press :
    isValid unreleasedView.rows (some 2) = true ∧
    unreleasedView.m_mousePressHandled = true ∧
    unreleasedView.selectedIndexes = [2, 4] ∧
    (leftClick unreleasedView 2 true).selectedIndexes = [2, 4] := by
  decide

/-- The ctrl-click removes the row whenever no press is left unconsumed
(`m_mousePressHandled = false`, as after the constructor and after every
release on a row): on a valid selected row `i`, with some other row selected
as well, it removes exactly `i` from the selection. -/
theorem ctrlClick_deselects (s : NoteListView) (i : Nat)
    (hflag : s.m_mousePressHandled = false)
    (hvalid : i < s.rows.length)
    (hsel : i ∈ s.selectedIndexes)
    (hother : ∃ k ∈ s.selectedIndexes, k ≠ i) :
    ∀ j, j ∈ (leftClick s i true).selectedIndexes ↔ j ∈ s.selectedIndexes ∧ j ≠ i := by
  intro j
  have hlen : s.selectedIndexes.length > 1 := by
    obtain ⟨k, hk, hne⟩ := hother
    rcases hl : s.selectedIndexes with _ | ⟨a, _ | ⟨b, t⟩⟩
    · rw [hl] at hk; simp at hk
    · rw [hl] at hk hsel
      simp only [List.mem_singleton] at hk hsel
      exact absurd (hk.trans hsel.symm) hne
    · simp
  have hres : (leftClick s i true).selectedIndexes
      = mergeSelection s.selectedIndexes [i] SelectionFlags.Deselect := by
    unfold leftClick
    rw [press_left_selected s i true hvalid hsel,
      release_left_ctrl_deselect { s with m_isMousePressed := true } i hvalid hflag hsel hlen]
    rfl
  rw [hres, mem_merge_deselect]

/-- The scenario of §8 from a fresh view: selection {3, 5} (positions 2 and 4)
and a ctrl-click on row 3. -/
theorem ctrlClick_deselects_witness :
    (leftClick (leftClick pinnedView 2 false) 4 true).selectedIndexes = [2, 4] ∧
    ∀ j, j ∈ (leftClick (leftClick (leftClick pinnedView 2 false) 4 true) 2 true).selectedIndexes
      ↔ j ∈ (leftClick (leftClick pinnedView 2 false) 4 true).selectedIndexes ∧ j ≠ 2 :=
  ⟨by decide,
   ctrlClick_deselects (leftClick (leftClick pinnedView 2 false) 4 true) 2
    (by decide) (by decide) (by decide) ⟨4, by decide, by decide⟩⟩

/-- C7 fails on the code in a reachable state: after a plain click on row C, a
ctrl-press on the last row E and the release of that press below the rows,
the press flag `m_mousePressHandled` is still set; a plain click on the
selected row C then changes nothing, and the view stays in multi-selection
mode with C and E selected and E current. -/
theorem plainClick_after_unreleased_press :
    unreleasedView.m_mousePressHandled = true ∧
    unreleasedView.selectedIndexes = [2, 4] ∧
    (leftClick unreleasedView 2 false).selectedIndexes = [2, 4] ∧
    (leftClick unreleasedView 2 false).selectionMode = .MultiSelection ∧
    (leftClick unreleasedView 2 false).selection.currentIndex = some 4 := by
  decide

/-- The plain click does what C7 says whenever no press is left unconsumed. -/
theorem plainClick_selects_single (s : NoteListView) (i : Nat)
    (hflag : s.m_mousePressHandled = false)
    (hvalid : i < s.rows.length) :
    (leftClick s i false).selectedIndexes = [i] ∧
    (leftClick s i false).selection.currentIndex = some i ∧
    (leftClick s i false).selectionMode = .SingleSelection := by
  unfold leftClick
  by_cases hsel : i ∈ s.selectedIndexes
  · rw [press_left_selected s i false hvalid hsel, release_left_plain { s with m_isMousePressed := true } i hvalid hflag]
    exact ⟨rfl, rfl, rfl⟩
  · rw [press_left_plain s i hvalid hsel]
    rw [release_left_handled _ i false (by exact hvalid) rfl]
    exact ⟨rfl, rfl, rfl⟩

/-- C8: a left press with ctrl on a valid row `i` that is not selected puts
the view in multi-selection mode, makes `i` the current row, selects `i` on
top of the previous selection and emits `notePressed` with the whole new
selection. -/
theorem ctrlPress_extends (s : NoteListView) (i : Nat)
    (hvalid : i < s.rows.length)
    (hnot : i ∉ s.selectedIndexes) :
    (mousePressEvent s (leftOn i true)).selectionMode = .MultiSelection ∧
    (mousePressEvent s (leftOn i true)).selection.currentIndex = some i ∧
    (∀ j, j ∈ (mousePressEvent s (leftOn i true)).selectedIndexes ↔
      j ∈ s.selectedIndexes ∨ j = i) ∧
    (mousePressEvent s (leftOn i true)).emitted
      = s.emitted ++ [.notePressed (mousePressEvent s (leftOn i true)).selectedIndexes] := by
  rw [press_left_ctrl s i hvalid hnot]
  refine ⟨rfl, rfl, ?_, rfl⟩
  intro j
  exact mem_merge_selectCurrent s.selectedIndexes i j

/-- Witness for C8: the scenario of §8, selection {3} and a ctrl-press on
row 5 (position 4). -/
theorem ctrlPress_extends_witness :
    (mousePressEvent (leftClick pinnedView 2 false) (leftOn 4 true)).selectedIndexes = [2, 4] ∧
    (mousePressEvent (leftClick pinnedView 2 false) (leftOn 4 true)).selectionMode
      = .MultiSelection ∧
    (mousePressEvent (leftClick pinnedView 2 false) (leftOn 4 true)).selection.currentIndex
      = some 4 ∧
    (∀ j, j ∈ (mousePressEvent (leftClick pinnedView 2 false) (leftOn 4 true)).selectedIndexes ↔
      j ∈ (leftClick pinnedView 2 false).selectedIndexes ∨ j = 4) ∧
    (mousePressEvent (leftClick pinnedView 2 false) (leftOn 4 true)).emitted
      = (leftClick pinnedView 2 false).emitted ++ [.notePressed
          (mousePressEvent (leftClick pinnedView 2 false) (leftOn 4 true)).selectedIndexes] :=
  ⟨by decide,
   ctrlPress_extends (leftClick pinnedView 2 false) 4 (by decide) (by decide)⟩

/-- C9: a right-button press on a valid row `i`, and likewise the context-menu
request on it, keeps the selection when `i` is selected, and otherwise makes
`i` the only selected row and the current row in single-selection mode. -/
theorem secondaryClick_selection (s : NoteListView) (i : Nat) (ctrl : Bool)
    (hvalid : i < s.rows.length) :
    (i ∈ s.selectedIndexes →
      (mousePressEvent s (rightOn i ctrl)).selection = s.selection ∧
      (mousePressEvent s (rightOn i ctrl)).selectionMode = s.selectionMode ∧
      onCustomContextMenu s (some i) = s) ∧
    (i ∉ s.selectedIndexes →
      (mousePressEvent s (rightOn i ctrl)).selectedIndexes = [i] ∧
      (mousePressEvent s (rightOn i ctrl)).selection.currentIndex = some i ∧
      (mousePressEvent s (rightOn i ctrl)).selectionMode = .SingleSelection ∧
      (onCustomContextMenu s (some i)).selectedIndexes = [i] ∧
      (onCustomContextMenu s (some i)).selection.currentIndex = some i ∧
      (onCustomContextMenu s (some i)).selectionMode = .SingleSelection) := by
  have hv := isValid_some s.rows i hvalid
  constructor
  · intro hsel
    have hc := containsIndex_true _ i hsel
    rw [press_right_selected s i ctrl hvalid hsel]
    refine ⟨rfl, rfl, ?_⟩
    simp only [onCustomContextMenu, hv, hc]
    rfl
  · intro hsel
    have hc := containsIndex_false _ i hsel
    rw [press_right_unselected s i ctrl hvalid hsel]
    refine ⟨rfl, rfl, rfl, ?_⟩
    simp only [onCustomContextMenu, hv, hc, setCurrentIndexC_eq]
    exact ⟨rfl, rfl, rfl⟩

/-- Witness for C9: with rows 3 and 5 selected (positions 2 and 4), a
right-button press on the unselected row 4 and one on the selected row 3. -/
theorem secondaryClick_selection_witness :
    (leftClick (leftClick pinnedView 2 false) 4 true).selectedIndexes = [2, 4] ∧
    (mousePressEvent (leftClick (leftClick pinnedView 2 false) 4 true)
        (rightOn 3 false)).selectedIndexes = [3] ∧
    (mousePressEvent (leftClick (leftClick pinnedView 2 false) 4 true)
        (rightOn 2 false)).selection
      = (leftClick (leftClick pinnedView 2 false) 4 true).selection :=
  ⟨by decide,
   ((secondaryClick_selection (leftClick (leftClick pinnedView 2 false) 4 true) 3 false
      (by decide)).2 (by decide)).1,
   ((secondaryClick_selection (leftClick (leftClick pinnedView 2 false) 4 true) 2 false
      (by decide)).1 (by decide)).1⟩


/-! ## Claims on the early exit of the scan -/

theorem scrollLoop_opens (range : Int) :
    ∀ (rows : List NoteRow) (reg : EditorMap), (rows.map NoteRow.id).Nodup →
      rows.Pairwise (fun a b => a.y ≤ b.y) →
      ∀ r ∈ rows, inWindow range r = true → r.isHaveTag = true →
        (scrollLoop range rows reg).contains r.id = true := by
  intro rows
  induction rows with
  | nil => intro reg _ _ r hr; simp at hr
  | cons a rs ih =>
    intro reg hnd hsorted r hr hw htag
    rw [List.map_cons, List.nodup_cons] at hnd
    rw [List.pairwise_cons] at hsorted
    have hnot : ∀ q ∈ rs, q.id ≠ a.id := by
      intro q hq e
      exact hnd.1 (e ▸ List.mem_map_of_mem NoteRow.id hq)
    rcases List.mem_cons.1 hr with rfl | hmem
    · -- the row under the scan itself: it is kept or opened, and no later row has its id
      have hin : ¬ (r.y < -range ∨ r.y > 2 * range) := (inWindow_iff range r).1 hw
      have h1 : ¬ r.y < -range := fun h => hin (Or.inl h)
      have h2 : ¬ r.y > 2 * range := fun h => hin (Or.inr h)
      by_cases hc : reg.contains r.id = true
      · have hstep : scrollLoop range (r :: rs) reg = scrollLoop range rs reg := by
          simp only [scrollLoop, hc, if_true, if_neg hin]
        rw [hstep]
        exact (scrollLoop_contains_of_not_mem range r.id rs reg hnot).2 hc
      · have hstep : scrollLoop range (r :: rs) reg = scrollLoop range rs (openRow reg r) := by
          simp only [scrollLoop, if_neg hc, if_neg h1, if_neg h2]
        rw [hstep]
        refine (scrollLoop_contains_of_not_mem range r.id rs _ hnot).2 ?_
        rw [contains_openRow]
        exact Or.inl ⟨htag, rfl⟩
    · -- a later row: the scan cannot stop at `a`, which lies no lower than `r`
      have hle : a.y ≤ r.y := hsorted.1 r hmem
      have hr2 : r.y ≤ 2 * range := by
        have := (inWindow_iff range r).1 hw
        by_contra hc
        exact this (Or.inr (by omega))
      simp only [scrollLoop]
      split
      · split
        · exact ih _ hnd.2 hsorted.2 r hmem hw htag
        · exact ih _ hnd.2 hsorted.2 r hmem hw htag
      · split
        · exact ih _ hnd.2 hsorted.2 r hmem hw htag
        · split
          · rename_i hbelow
            omega
          · exact ih _ hnd.2 hsorted.2 r hmem hw htag

/-- C15: when the rows are laid out top to bottom (`y` non-decreasing in row
position) and row ids are distinct, then for every prior registry, after
`scrollContentsBy` every row with `-range ≤ y ≤ 2·range` and interactive
content is in the registry. -/
theorem scrollContentsBy_opens_window_rows (s : NoteListView) (dx dy : Int)
    (hnodup : (s.rows.map NoteRow.id).Nodup)
    (hsorted : s.rows.Pairwise (fun a b => a.y ≤ b.y)) :
    ∀ r ∈ s.rows, -viewRange s.viewportHeight ≤ r.y → r.y ≤ 2 * viewRange s.viewportHeight →
      r.isHaveTag = true →
      (scrollContentsBy s dx dy).m_openedEditor.contains r.id = true := by
  intro r hr h1 h2 htag
  have hw : inWindow (viewRange s.viewportHeight) r = true := by
    simp [inWindow, h1, h2]
  exact scrollLoop_opens _ s.rows s.m_openedEditor hnodup hsorted r hr hw htag

/-- Witness for C15: `windowRows` are sorted by `y`; rows 2 and 4 are the rows
of the window with a tag. -/
theorem scrollContentsBy_opens_window_rows_witness :
    (windowView.rows.map NoteRow.id).Nodup ∧
    windowView.rows.Pairwise (fun a b => a.y ≤ b.y) ∧
    ∀ r ∈ windowView.rows, -viewRange windowView.viewportHeight ≤ r.y →
      r.y ≤ 2 * viewRange windowView.viewportHeight → r.isHaveTag = true →
      (scrollContentsBy windowView 0 0).m_openedEditor.contains r.id = true :=
  ⟨by decide, by decide,
   scrollContentsBy_opens_window_rows windowView 0 0 (by decide) (by decide)⟩


/-! ## Claims on the pin actions of the context menu -/

theorem pinLoop_showPin_of_unpinned (rows : List NoteRow) :
    ∀ l : List Nat, (∀ i ∈ l, noteIsPinned rows (some i) = false) →
      pinLoop rows l .ShowPin = .ShowPin := by
  intro l
  induction l with
  | nil => intro _; rfl
  | cons i t ih =>
    intro h
    have hi := h i (List.mem_cons_self _ _)
    simp only [pinLoop, hi, Bool.false_eq_true, if_false]
    rw [if_neg (by decide)]
    exact ih (fun j hj => h j (List.mem_cons_of_mem _ hj))

theorem pinLoop_showUnpin_of_pinned (rows : List NoteRow) :
    ∀ l : List Nat, (∀ i ∈ l, noteIsPinned rows (some i) = true) →
      pinLoop rows l .ShowUnpin = .ShowUnpin := by
  intro l
  induction l with
  | nil => intro _; rfl
  | cons i t ih =>
    intro h
    have hi := h i (List.mem_cons_self _ _)
    simp only [pinLoop, hi, if_true]
    rw [if_neg (by decide)]
    exact ih (fun j hj => h j (List.mem_cons_of_mem _ hj))

theorem pinLoop_showPin_of_pinned_mem (rows : List NoteRow) :
    ∀ l : List Nat, (∃ i ∈ l, noteIsPinned rows (some i) = true) →
      pinLoop rows l .ShowPin = .ShowBoth := by
  intro l
  induction l with
  | nil => rintro ⟨i, hi, _⟩; simp at hi
  | cons i t ih =>
    rintro ⟨j, hj, hp⟩
    cases hi : noteIsPinned rows (some i) with
    | true => simp only [pinLoop, hi, if_true]
    | false =>
      simp only [pinLoop, hi, Bool.false_eq_true, if_false]
      rw [if_neg (by decide)]
      rcases List.mem_cons.1 hj with rfl | hmem
      · rw [hi] at hp; exact Bool.noConfusion hp
      · exact ih ⟨j, hmem, hp⟩

theorem pinLoop_showUnpin_of_unpinned_mem (rows : List NoteRow) :
    ∀ l : List Nat, (∃ i ∈ l, noteIsPinned rows (some i) = false) →
      pinLoop rows l .ShowUnpin = .ShowBoth := by
  intro l
  induction l with
  | nil => rintro ⟨i, hi, _⟩; simp at hi
  | cons i t ih =>
    rintro ⟨j, hj, hp⟩
    cases hi : noteIsPinned rows (some i) with
    | false => simp only [pinLoop, hi, Bool.false_eq_true, if_false, if_true]
    | true =>
      simp only [pinLoop, hi, if_true]
      rw [if_neg (by decide)]
      rcases List.mem_cons.1 hj with rfl | hmem
      · rw [hi] at hp; exact Bool.noConfusion hp
      · exact ih ⟨j, hmem, hp⟩

/-- The value of `a` after the loop, by the pinned flags of the selection. -/
theorem pinLoop_notInit (rows : List NoteRow) (l : List Nat) (hne : l ≠ []) :
    ((∀ i ∈ l, noteIsPinned rows (some i) = false) → pinLoop rows l .NotInit = .ShowPin) ∧
    ((∀ i ∈ l, noteIsPinned rows (some i) = true) → pinLoop rows l .NotInit = .ShowUnpin) ∧
    ((∃ i ∈ l, noteIsPinned rows (some i) = true) →
      (∃ i ∈ l, noteIsPinned rows (some i) = false) → pinLoop rows l .NotInit = .ShowBoth) := by
  cases l with
  | nil => exact absurd rfl hne
  | cons i t =>
    refine ⟨?_, ?_, ?_⟩
    · intro h
      have hi := h i (List.mem_cons_self _ _)
      simp only [pinLoop, hi, Bool.false_eq_true, if_false]
      rw [if_neg (by decide)]
      exact pinLoop_showPin_of_unpinned rows t (fun j hj => h j (List.mem_cons_of_mem _ hj))
    · intro h
      have hi := h i (List.mem_cons_self _ _)
      simp only [pinLoop, hi, if_true]
      rw [if_neg (by decide)]
      exact pinLoop_showUnpin_of_pinned rows t (fun j hj => h j (List.mem_cons_of_mem _ hj))
    · rintro ⟨j, hj, hp⟩ ⟨k, hk, hu⟩
      cases hi : noteIsPinned rows (some i) with
      | true =>
        simp only [pinLoop, hi, if_true]
        rw [if_neg (by decide)]
        rcases List.mem_cons.1 hk with rfl | hmem
        · rw [hi] at hu; exact Bool.noConfusion hu
        · exact pinLoop_showUnpin_of_unpinned_mem rows t ⟨k, hmem, hu⟩
      | false =>
        simp only [pinLoop, hi, Bool.false_eq_true, if_false]
        rw [if_neg (by decide)]
        rcases List.mem_cons.1 hj with rfl | hmem
        · rw [hi] at hp; exact Bool.noConfusion hp
        · exact pinLoop_showPin_of_pinned_mem rows t ⟨j, hmem, hp⟩

theorem contextMenuPinActions_of_multi (rows : List NoteRow) (indexList : List Nat)
    (index : QModelIndex)
    (hmulti : 1 < ((indexList.map (fun i => noteId rows (some i))).dedup).length) :
    contextMenuPinActions rows indexList index
      = pinSwitch (pinLoop rows indexList .NotInit) := by
  unfold contextMenuPinActions
  exact if_pos hmulti

/-- C16: for a selection with two or more notes, the pin section of the
context menu holds only the Pin action when no selected note is pinned, only
the Unpin action when all are pinned, and both when the selection is mixed;
the result is the same for every order of the selected notes. -/
theorem contextMenuPinActions_multi (rows : List NoteRow) (indexList : List Nat)
    (index : QModelIndex)
    (hmulti : 1 < ((indexList.map (fun i => noteId rows (some i))).dedup).length) :
    ((∀ i ∈ indexList, noteIsPinned rows (some i) = false) →
      contextMenuPinActions rows indexList index = [.m_pinNoteAction]) ∧
    ((∀ i ∈ indexList, noteIsPinned rows (some i) = true) →
      contextMenuPinActions rows indexList index = [.m_unpinNoteAction]) ∧
    ((∃ i ∈ indexList, noteIsPinned rows (some i) = true) →
      (∃ i ∈ indexList, noteIsPinned rows (some i) = false) →
      contextMenuPinActions rows indexList index
        = [.m_pinNoteAction, .m_unpinNoteAction]) ∧
    (∀ visited : List Nat, visited.Perm indexList →
      contextMenuPinActions rows visited index
        = contextMenuPinActions rows indexList index) := by
  have hne : ∀ l : List Nat,
      1 < ((l.map (fun i => noteId rows (some i))).dedup).length → l ≠ [] := by
    intro l h e
    subst e
    simp at h
  have hcases : ∀ l : List Nat,
      1 < ((l.map (fun i => noteId rows (some i))).dedup).length →
      ((∀ i ∈ l, noteIsPinned rows (some i) = false) →
        contextMenuPinActions rows l index = [.m_pinNoteAction]) ∧
      ((∀ i ∈ l, noteIsPinned rows (some i) = true) →
        contextMenuPinActions rows l index = [.m_unpinNoteAction]) ∧
      ((∃ i ∈ l, noteIsPinned rows (some i) = true) →
        (∃ i ∈ l, noteIsPinned rows (some i) = false) →
        contextMenuPinActions rows l index = [.m_pinNoteAction, .m_unpinNoteAction]) := by
    intro l h
    have hloop := pinLoop_notInit rows l (hne l h)
    rw [contextMenuPinActions_of_multi rows l index h]
    refine ⟨?_, ?_, ?_⟩
    · intro hu; rw [hloop.1 hu]; rfl
    · intro hp; rw [hloop.2.1 hp]; rfl
    · intro hp hu; rw [hloop.2.2 hp hu]; rfl
  obtain ⟨h1, h2, h3⟩ := hcases indexList hmulti
  refine ⟨h1, h2, h3, ?_⟩
  intro visited hperm
  have hmulti2 : 1 < ((visited.map (fun i => noteId rows (some i))).dedup).length := by
    rw [((hperm.map _).dedup).length_eq]
    exact hmulti
  obtain ⟨g1, g2, g3⟩ := hcases visited hmulti2
  by_cases hu : ∀ i ∈ indexList, noteIsPinned rows (some i) = false
  · rw [h1 hu, g1 (fun i hi => hu i (hperm.mem_iff.1 hi))]
  · by_cases hp : ∀ i ∈ indexList, noteIsPinned rows (some i) = true
    · rw [h2 hp, g2 (fun i hi => hp i (hperm.mem_iff.1 hi))]
    · have hex1 : ∃ i ∈ indexList, noteIsPinned rows (some i) = true := by
        by_contra hc
        apply hu
        intro i hi
        cases hv : noteIsPinned rows (some i) with
        | false => rfl
        | true => exact absurd ⟨i, hi, hv⟩ hc
      have hex2 : ∃ i ∈ indexList, noteIsPinned rows (some i) = false := by
        by_contra hc
        apply hp
        intro i hi
        cases hv : noteIsPinned rows (some i) with
        | true => rfl
        | false => exact absurd ⟨i, hi, hv⟩ hc
      obtain ⟨a, ha, hap⟩ := hex1
      obtain ⟨b, hb, hbu⟩ := hex2
      rw [h3 ⟨a, ha, hap⟩ ⟨b, hb, hbu⟩,
        g3 ⟨a, hperm.mem_iff.2 ha, hap⟩ ⟨b, hperm.mem_iff.2 hb, hbu⟩]

/-- Witness for C16: rows C, A and E of `pinnedRows` selected, of which only A
is pinned; both actions are shown, also when A is visited first. -/
theorem contextMenuPinActions_multi_witness :
    1 < (([2, 0, 4].map (fun i => noteId pinnedRows (some i))).dedup).length ∧
    contextMenuPinActions pinnedRows [2, 0, 4] (some 2)
      = [.m_pinNoteAction, .m_unpinNoteAction] ∧
    contextMenuPinActions pinnedRows [0, 4, 2] (some 2)
      = contextMenuPinActions pinnedRows [2, 0, 4] (some 2) :=
  ⟨by decide,
   (contextMenuPinActions_multi pinnedRows [2, 0, 4] (some 2) (by decide)).2.2.1
     ⟨0, by decide, by decide⟩ ⟨2, by decide, by decide⟩,
   (contextMenuPinActions_multi pinnedRows [2, 0, 4] (some 2) (by decide)).2.2.2
     [0, 4, 2] (by decide)⟩


/-! ## Claims on insert marks and on the accepting drag path -/

/-- C11 fails on the code when animations are disabled:
`onRowsInserted` sets row D of `pinnedRows` (note id 4) to Insert although
`m_animationEnabled` is false, where `rowsMoved`, serving the same request
for moved rows, sets it to Normal. -/
theorem onRowsInserted_ignores_animationEnabled :
    (setAnimationEnabled pinnedView false).m_animationEnabled = false ∧
    (onRowsInserted (setAnimationEnabled pinnedView false) [some 3]).tickets 4
      = NoteListState.Insert ∧
    (rowsMoved (setAnimationEnabled pinnedView false) [some 3]).tickets 4
      = NoteListState.Normal := by
  decide

/-- Whatever `m_animationEnabled` is, `onRowsInserted` sets every valid row it
is given to Insert: the half of C11 for enabled animations holds. -/
theorem onRowsInserted_sets_insert (s : NoteListView) (indexes : List QModelIndex)
    (ix : QModelIndex) (hix : ix ∈ indexes) (hvalid : isValid s.rows ix = true) :
    (onRowsInserted s indexes).tickets (noteId s.rows ix) = .Insert := by
  simp only [onRowsInserted, animateAddedRow]
  exact setState_sets s.rows s.tickets .Insert indexes ix hix hvalid

/-- C12, as stated, fails: with no pinned row in the drag, a note drag over
the valid unpinned row D is ignored, and `m_isDraggingInsidePinned`, set by
the earlier hover over the pinned row B, stays true. -/
theorem dragMoveEvent_unpinned_over_unpinned_counterexample :
    insidePinnedView.m_isDraggingPinnedNotes = false ∧
    dragOverD.hasNoteMime = true ∧
    isValid insidePinnedView.rows dragOverD.index = true ∧
    noteIsPinned insidePinnedView.rows dragOverD.index = false ∧
    (dragMoveEvent insidePinnedView dragOverD).2.accepted = false ∧
    (dragMoveEvent insidePinnedView dragOverD).1.m_isDraggingInsidePinned = true := by
  decide

/-- C12 (amended): for a note drag over a valid target row, unless the drag
holds no pinned row and the target is not pinned, `dragMoveEvent` sets
`m_isDraggingInsidePinned` to the pinned flag of the target, keeps the row
order and leaves the accept flag to the list view; a drag without a pinned row
over an unpinned target is ignored and changes nothing. -/
theorem dragMoveEvent_accepting_path (s : NoteListView) (event : QDragMoveEvent)
    (hmime : event.hasNoteMime = true)
    (hvalid : isValid s.rows event.index = true) :
    ((s.m_isDraggingPinnedNotes = true ∨ noteIsPinned s.rows event.index = true) →
      (dragMoveEvent s event).1.m_isDraggingInsidePinned = noteIsPinned s.rows event.index ∧
      (dragMoveEvent s event).1.rows = s.rows ∧
      (dragMoveEvent s event).2.accepted = event.listViewAccepts) ∧
    (s.m_isDraggingPinnedNotes = false → noteIsPinned s.rows event.index = false →
      (dragMoveEvent s event).2.accepted = false ∧ (dragMoveEvent s event).1 = s) := by
  constructor
  · intro hpass
    have hguard : (!s.m_isDraggingPinnedNotes && !noteIsPinned s.rows event.index) = false := by
      rcases hpass with h | h <;> simp [h]
    have hres : dragMoveEvent s event
        = ({ s with m_isDraggingInsidePinned := noteIsPinned s.rows event.index },
           { event with accepted := event.listViewAccepts }) := by
      simp only [dragMoveEvent, hmime, hvalid, hguard, if_true, Bool.not_true,
        Bool.false_eq_true, if_false]
    rw [hres]
    exact ⟨rfl, rfl, rfl⟩
  · intro hd hp
    have hres : dragMoveEvent s event = (s, { event with accepted := false }) := by
      simp only [dragMoveEvent, hmime, hvalid, hd, hp, if_true, Bool.not_true, Bool.not_false,
        Bool.false_eq_true, if_false, Bool.and_self]
    rw [hres]
    exact ⟨rfl, rfl⟩

/-- Witness for C12 (amended): the unpinned row C dragged over the pinned row
B of `pinnedRows`. -/
theorem dragMoveEvent_accepting_path_witness :
    dragOverB.hasNoteMime = true ∧
    isValid pinnedView.rows dragOverB.index = true ∧
    (dragMoveEvent pinnedView dragOverB).1.m_isDraggingInsidePinned
      = noteIsPinned pinnedView.rows dragOverB.index ∧
    (dragMoveEvent pinnedView dragOverB).1.rows = pinnedView.rows ∧
    (dragMoveEvent pinnedView dragOverB).2.accepted = dragOverB.listViewAccepts :=
  ⟨by decide, by decide,
   (dragMoveEvent_accepting_path pinnedView dragOverB (by decide) (by decide)).1
     (Or.inr (by decide))⟩


/-! ## Claims on repeated activation -/

theorem value_assign (m : EditorMap) (k : Int) (v : List Nat) (j : Int) :
    (EditorMap.assign k v m).value j = if j = k then v else m.value j := by
  induction m with
  | nil =>
    by_cases h : j = k
    · subst h; simp [EditorMap.assign, EditorMap.value]
    · have h2 : ¬ k = j := fun e => h e.symm
      simp [EditorMap.assign, EditorMap.value, h, h2]
  | cons e t ih =>
    obtain ⟨a, w⟩ := e
    simp only [EditorMap.assign]
    by_cases hlt : k < a
    · rw [if_pos hlt]
      by_cases h : j = k
      · subst h; simp [EditorMap.value]
      · have h2 : ¬ k = j := fun e => h e.symm
        simp [EditorMap.value, h, h2, List.find?_cons]
    · rw [if_neg hlt]
      by_cases hka : k = a
      · rw [if_pos hka]
        subst hka
        by_cases h : j = k
        · subst h; simp [EditorMap.value]
        · have h2 : ¬ k = j := fun e => h e.symm
          simp [EditorMap.value, h, h2, List.find?_cons]
      · rw [if_neg hka]
        by_cases haj : a = j
        · subst haj
          have h3 : ¬ a = k := fun e => hka e.symm
          simp [EditorMap.value, h3, List.find?_cons]
        · have h1 : EditorMap.value ((a, w) :: EditorMap.assign k v t) j
              = EditorMap.value (EditorMap.assign k v t) j := by
            simp [EditorMap.value, List.find?_cons, haj]
          have h2 : EditorMap.value ((a, w) :: t) j = EditorMap.value t j := by
            simp [EditorMap.value, List.find?_cons, haj]
          rw [h1, ih, h2]

theorem rowAt_of_isValid (rows : List NoteRow) (index : QModelIndex)
    (h : isValid rows index = true) : ∃ r, rowAt rows index = some r := by
  cases index with
  | none => simp [isValid] at h
  | some i =>
    have hlt : i < rows.length := by simpa [isValid] using h
    exact ⟨rows[i], by simp [rowAt, hlt]⟩

/-- C13, as stated, fails: note 2 is registered with its editor widget 7;
`openPersistentEditorC` on its row keeps the note registered but replaces the
widget list by the empty one. -/
theorem openPersistentEditorC_resets_widgets :
    widgetRegistry.contains 2 = true ∧
    widgetRegistry.value 2 = [7] ∧
    noteId windowRows (some 1) = 2 ∧
    (openPersistentEditorC windowRows widgetRegistry (some 1)).value 2 = [] ∧
    openPersistentEditorC windowRows widgetRegistry (some 1) ≠ widgetRegistry := by
  decide

/-- C13 (amended): `openPersistentEditorC` on a row without a tag leaves the
registry unchanged; on a row that is already registered it leaves the set of
registered ids and the widget lists of all other ids unchanged, and when the
row has a tag it resets the widget list of the row to the empty list. -/
theorem openPersistentEditorC_registered (rows : List NoteRow) (reg : EditorMap)
    (index : QModelIndex) :
    (noteIsHaveTag rows index = false → openPersistentEditorC rows reg index = reg) ∧
    (reg.contains (noteId rows index) = true →
      (∀ j, (openPersistentEditorC rows reg index).contains j = reg.contains j) ∧
      (∀ j, j ≠ noteId rows index →
        (openPersistentEditorC rows reg index).value j = reg.value j) ∧
      (isValid rows index = true → noteIsHaveTag rows index = true →
        (openPersistentEditorC rows reg index).value (noteId rows index) = [])) := by
  by_cases hv : isValid rows index = true
  · obtain ⟨r, hr⟩ := rowAt_of_isValid rows index hv
    have hopen : openPersistentEditorC rows reg index = openRow reg r := by
      simp only [openPersistentEditorC, hv, if_true, hr]
    have hid : noteId rows index = r.id := by simp only [noteId, hr]
    have htag : noteIsHaveTag rows index = r.isHaveTag := by simp only [noteIsHaveTag, hr]
    rw [hopen, hid, htag]
    refine ⟨?_, ?_⟩
    · intro h
      simp [openRow, h]
    · intro hc
      refine ⟨?_, ?_, ?_⟩
      · intro j
        rw [Bool.eq_iff_iff, contains_openRow]
        constructor
        · rintro (⟨_, e⟩ | h)
          · rw [e]; exact hc
          · exact h
        · exact fun h => Or.inr h
      · intro j hj
        unfold openRow
        split
        · rw [value_assign, if_neg hj]
        · rfl
      · intro _ ht
        simp only [openRow, ht, if_true]
        rw [value_assign, if_pos rfl]
  · have hopen : openPersistentEditorC rows reg index = reg := by
      simp only [openPersistentEditorC, hv, Bool.false_eq_true, if_false]
    rw [hopen]
    exact ⟨fun _ => rfl, fun _ => ⟨fun _ => rfl, fun _ _ => rfl, fun h => absurd h hv⟩⟩

/-- Witness for C13 (amended): row 2 of `windowRows` registered with widget 7
next to row 4 with widget 9. -/
theorem openPersistentEditorC_registered_witness :
    EditorMap.contains [(2, [7]), (4, [9])] (noteId windowRows (some 1)) = true ∧
    (∀ j, (openPersistentEditorC windowRows [(2, [7]), (4, [9])] (some 1)).contains j
      = EditorMap.contains [(2, [7]), (4, [9])] j) ∧
    (openPersistentEditorC windowRows [(2, [7]), (4, [9])] (some 1)).value 4 = [9] ∧
    (openPersistentEditorC windowRows [(2, [7]), (4, [9])] (some 1)).value 2 = [] ∧
    openPersistentEditorC windowRows [(2, [7]), (4, [9])] (some 2) = [(2, [7]), (4, [9])] :=
  ⟨by decide,
   ((openPersistentEditorC_registered windowRows [(2, [7]), (4, [9])] (some 1)).2
      (by decide)).1,
   ((openPersistentEditorC_registered windowRows [(2, [7]), (4, [9])] (some 1)).2
      (by decide)).2.1 4 (by decide),
   ((openPersistentEditorC_registered windowRows [(2, [7]), (4, [9])] (some 1)).2
      (by decide)).2.2 (by decide) (by decide),
   (openPersistentEditorC_registered windowRows [(2, [7]), (4, [9])] (some 2)).1
      (by decide)⟩


/-! ## Claims on the emission of `notePressed` -/

theorem notePressedCount_append (l : List Signal) (x : List Nat) :
    notePressedCount (l ++ [.notePressed x]) = notePressedCount l + 1 := by
  induction l with
  | nil => rfl
  | cons a t ih =>
    cases a with
    | notePressed y =>
      show notePressedCount (t ++ [.notePressed x]) + 1 = notePressedCount t + 1 + 1
      rw [ih]
    | noteListViewClicked =>
      show notePressedCount (t ++ [.notePressed x]) = notePressedCount t + 1
      exact ih
    | pinnedCollapseChanged =>
      show notePressedCount (t ++ [.notePressed x]) = notePressedCount t + 1
      exact ih

theorem release_left_ctrl_select (s : NoteListView) (i : Nat)
    (hvalid : i < s.rows.length) (hflag : s.m_mousePressHandled = false)
    (hcond : ¬ (i ∈ s.selectedIndexes ∧ s.selectedIndexes.length > 1)) :
    mouseReleaseEvent s (leftOn i true)
      = { s with m_isMousePressed := false,
                 m_mousePressHandled := false,
                 selectionMode := .MultiSelection,
                 selection := ⟨s.selectedIndexes, [i], SelectionFlags.SelectCurrent, some i⟩,
                 emitted := s.emitted ++ [.notePressed
                   (mergeSelection s.selectedIndexes [i] SelectionFlags.SelectCurrent)] } := by
  have hv := isValid_some s.rows i hvalid
  have hcond2 : ¬ (containsIndex s.selection.selectedIndexes (some i) = true ∧
      s.selection.selectedIndexes.length > 1) := by
    intro h
    exact hcond ⟨by simpa [containsIndex] using h.1, h.2⟩
  simp only [mouseReleaseEvent, leftOn, hv, hflag, hcond2, NoteListView.selectedIndexes,
    NoteListView.setCurrentIndex, toggle_then_selectCurrent, NoteListView.emit]
  rfl

theorem release_left_emits (s : NoteListView) (j : Nat) (ctrl : Bool)
    (hvalid : j < s.rows.length) (hflag : s.m_mousePressHandled = false) :
    ∃ x, (mouseReleaseEvent s (leftOn j ctrl)).emitted = s.emitted ++ [.notePressed x] := by
  have hv := isValid_some s.rows j hvalid
  cases ctrl with
  | false =>
    rw [release_left_plain s j hvalid hflag]
    exact ⟨_, rfl⟩
  | true =>
    by_cases hcond : j ∈ s.selectedIndexes ∧ s.selectedIndexes.length > 1
    · rw [release_left_ctrl_deselect s j hvalid hflag hcond.1 hcond.2]
      exact ⟨_, rfl⟩
    · rw [release_left_ctrl_select s j hvalid hflag hcond]
      exact ⟨_, rfl⟩

/-- C14 fails on the code in a reachable state: in `unreleasedView`, where the
press flag of an earlier ctrl-press was never cleared, the plain click on the
valid, selected row C emits no `notePressed` at all. -/
theorem leftClick_after_unreleased_press_emits_nothing :
    isValid unreleasedView.rows (some 2) = true ∧
    unreleasedView.m_mousePressHandled = true ∧
    (leftClick unreleasedView 2 false).emitted = unreleasedView.emitted ∧
    notePressedCount (leftClick unreleasedView 2 false).emitted
      = notePressedCount unreleasedView.emitted := by
  decide

/-- From a state with no press left unconsumed, a left press on a valid row
followed by a left release on a valid row emits `notePressed` exactly once. -/
theorem leftGesture_emits_once (s : NoteListView) (i j : Nat) (ctrl ctrl2 : Bool)
    (hflag : s.m_mousePressHandled = false)
    (hi : i < s.rows.length) (hj : j < s.rows.length) :
    notePressedCount
        (mouseReleaseEvent (mousePressEvent s (leftOn i ctrl)) (leftOn j ctrl2)).emitted
      = notePressedCount s.emitted + 1 := by
  by_cases hsel : i ∈ s.selectedIndexes
  · rw [press_left_selected s i ctrl hi hsel]
    obtain ⟨x, hx⟩ := release_left_emits { s with m_isMousePressed := true } j ctrl2 hj hflag
    rw [hx]
    exact notePressedCount_append _ _
  · cases ctrl with
    | false =>
      rw [press_left_plain s i hi hsel]
      rw [release_left_handled _ j ctrl2 (by exact hj) rfl]
      exact notePressedCount_append _ _
    | true =>
      rw [press_left_ctrl s i hi hsel]
      rw [release_left_handled _ j ctrl2 (by exact hj) rfl]
      exact notePressedCount_append _ _

end Notes
